import Mathlib

/-!
Shallow embedding of the AlgoArena repository core
(`src/modules/game/*.py`, `src/modules/visualizer/search_algorithms.py`)
together with theorems settling the frozen specification claims.

Conventions used throughout the embedding:
* Python `list`s of ints become `List ℕ` / `List ℤ`; dictionaries become
  functions into `Option _` (absence = `none`).
* Machine integers are `ℤ`/`ℕ` (Python ints are unbounded, so no wrap).
* Python's float infinities used as alpha/beta sentinels are modelled by
  `WithBot ℤ` / `WithTop ℤ`; heuristic values are modelled over `ℚ`.
* `while` loops become fuel-indexed recursions; the fuel is chosen large
  enough that the Python loop (which terminates on the same state
  measure) never needs more, and every property proved about a loop is a
  step invariant, hence independent of the fuel actually consumed.
-/

namespace Connect4

/-! ### `connect4_engine.py` -/

def ROWS : ℕ := 6
def COLS : ℕ := 7

def EMPTY : ℕ := 0
def PLAYER_PIECE : ℕ := 1
def AI_PIECE : ℕ := 2

/-- A board is a row-major list of rows, as in the Python code
(`board[r][c]`, row 0 on top). -/
abbrev Board := List (List ℕ)

/-- `board[r][c]`; out-of-range reads (which raise in Python and never
happen on well-formed boards) default to `EMPTY`. -/
def cell (b : Board) (r c : ℕ) : ℕ := (b.getD r []).getD c EMPTY

/-- `create_empty_board` -/
def create_empty_board : Board :=
  List.replicate ROWS (List.replicate COLS EMPTY)

/-- `is_valid_move`: the top cell of the column is empty. -/
def is_valid_move (b : Board) (col : ℕ) : Bool :=
  decide (col < COLS) && (cell b 0 col == EMPTY)

/-- Helper for `get_next_open_row`: scan rows `r, r-1, ..., 0` for the
first empty cell (the Python `for r in range(ROWS-1,-1,-1)` loop). -/
def scan_open_row (b : Board) (col : ℕ) : ℕ → Option ℕ
  | 0 => if cell b 0 col == EMPTY then some 0 else none
  | r + 1 => if cell b (r + 1) col == EMPTY then some (r + 1)
             else scan_open_row b col r

/-- `get_next_open_row`: lowest available row index in this column. -/
def get_next_open_row (b : Board) (col : ℕ) : Option ℕ :=
  scan_open_row b col (ROWS - 1)

/-- `drop_piece`: place a piece on the board (Python mutates in place;
here the updated board is returned). -/
def drop_piece (b : Board) (row col piece : ℕ) : Board :=
  b.set row ((b.getD row []).set col piece)

/-- `check_winner`: four in a row in any of the four orientations. -/
def check_winner (b : Board) (piece : ℕ) : Bool :=
  ((List.range ROWS).any fun r => (List.range (COLS - 3)).any fun c =>
    (List.range 4).all fun i => cell b r (c + i) == piece) ||
  ((List.range COLS).any fun c => (List.range (ROWS - 3)).any fun r =>
    (List.range 4).all fun i => cell b (r + i) c == piece) ||
  ((List.range (ROWS - 3)).any fun r => (List.range (COLS - 3)).any fun c =>
    (List.range 4).all fun i => cell b (r + i) (c + i) == piece) ||
  ((List.range (ROWS - 3)).any fun rm => (List.range (COLS - 3)).any fun c =>
    (List.range 4).all fun i => cell b (rm + 3 - i) (c + i) == piece)

/-- `is_draw`: top row has no empty cells. -/
def is_draw (b : Board) : Bool :=
  (List.range COLS).all fun c => !(cell b 0 c == EMPTY)

/-- The bottom-alignment invariant of the spec, per column: a filled
cell always has a filled cell directly below it (row indices grow
downwards). -/
def ColumnPacked (b : Board) (col : ℕ) : Prop :=
  ∀ r < ROWS - 1, cell b r col ≠ EMPTY → cell b (r + 1) col ≠ EMPTY

/-- Full-board invariant: every column is bottom-aligned with no gaps. -/
def BoardPacked (b : Board) : Prop := ∀ col < COLS, ColumnPacked b col

instance (b : Board) (col : ℕ) : Decidable (ColumnPacked b col) :=
  inferInstanceAs (Decidable (∀ r < ROWS - 1, _ ≠ _ → _ ≠ _))

instance (b : Board) : Decidable (BoardPacked b) :=
  inferInstanceAs (Decidable (∀ col < COLS, ColumnPacked b col))

/-- Well-formed board shape: 6 rows of 7 cells, as produced by
`create_empty_board` and preserved by `drop_piece`. -/
def BoardWF (b : Board) : Prop :=
  b.length = ROWS ∧ ∀ row ∈ b, row.length = COLS

instance (b : Board) : Decidable (BoardWF b) := by
  unfold BoardWF; infer_instance

/-! ### `minimax_agent.py` -/

/-- `evaluate_window`: score one 4-cell window for `piece`. -/
def evaluate_window (window : List ℕ) (piece : ℕ) : ℤ :=
  let opp_piece := if piece = AI_PIECE then PLAYER_PIECE else AI_PIECE
  let s1 : ℤ :=
    if window.count piece = 4 then 100
    else if window.count piece = 3 ∧ window.count EMPTY = 1 then 5
    else if window.count piece = 2 ∧ window.count EMPTY = 2 then 2
    else 0
  let s2 : ℤ :=
    if window.count opp_piece = 3 ∧ window.count EMPTY = 1 then -4 else 0
  s1 + s2

/-- `score_position`: heuristic evaluation of a whole board for `piece`. -/
def score_position (b : Board) (piece : ℕ) : ℤ :=
  let center : ℤ :=
    3 * ((List.range ROWS).map fun r => cell b r (COLS / 2)).count piece
  let horiz : ℤ :=
    (((List.range ROWS).map fun r => ((List.range (COLS - 3)).map fun c =>
      evaluate_window ((List.range 4).map fun i => cell b r (c + i)) piece).sum).sum)
  let vert : ℤ :=
    (((List.range COLS).map fun c => ((List.range (ROWS - 3)).map fun r =>
      evaluate_window ((List.range 4).map fun i => cell b (r + i) c) piece).sum).sum)
  let pos_diag : ℤ :=
    (((List.range (ROWS - 3)).map fun r => ((List.range (COLS - 3)).map fun c =>
      evaluate_window ((List.range 4).map fun i => cell b (r + i) (c + i)) piece).sum).sum)
  let neg_diag : ℤ :=
    (((List.range (ROWS - 3)).map fun rm => ((List.range (COLS - 3)).map fun c =>
      evaluate_window ((List.range 4).map fun i => cell b (rm + 3 - i) (c + i)) piece).sum).sum)
  center + horiz + vert + pos_diag + neg_diag

/-- `get_valid_locations` -/
def get_valid_locations (b : Board) : List ℕ :=
  (List.range COLS).filter fun c => is_valid_move b c

/-- `is_terminal` -/
def is_terminal (b : Board) : Bool :=
  check_winner b PLAYER_PIECE || check_winner b AI_PIECE || is_draw b

/-- Python's `float('-inf')`-seeded alpha / running max value:
`none` stands for `-inf`. -/
abbrev ExtLo := Option ℤ

/-- Python's `float('inf')`-seeded beta / running min value:
`none` stands for `+inf`. -/
abbrev ExtHi := Option ℤ

/-- `value < s` where `value` may be `-inf`. -/
def lo_lt (value : ExtLo) (s : ℤ) : Bool :=
  match value with
  | none => true
  | some v => decide (v < s)

/-- `s < value` where `value` may be `+inf`. -/
def hi_gt (value : ExtHi) (s : ℤ) : Bool :=
  match value with
  | none => true
  | some v => decide (s < v)

/-- `max alpha value` where both may be `-inf`. -/
def lo_max (a v : ExtLo) : ExtLo :=
  match a, v with
  | none, v => v
  | a, none => a
  | some a', some v' => some (max a' v')

/-- `min beta value` where both may be `+inf`. -/
def hi_min (b v : ExtHi) : ExtHi :=
  match b, v with
  | none, v => v
  | b, none => b
  | some b', some v' => some (min b' v')

/-- `alpha >= beta` where `alpha` may be `-inf` and `beta` may be
`+inf` (false in either of those cases). -/
def alpha_ge_beta (a : ExtLo) (b : ExtHi) : Bool :=
  match a, b with
  | some a', some b' => decide (b' ≤ a')
  | _, _ => false

/-- The board obtained by dropping `piece` into column `col`
(`deepcopy` + `get_next_open_row` + `drop_piece` in `minimax`).
A full column leaves the board unchanged; Python would raise there,
and `minimax` only ever does this for valid columns. -/
def child_board (b : Board) (col piece : ℕ) : Board :=
  match get_next_open_row b col with
  | some r => drop_piece b r col piece
  | none => b

/-- The maximizing `for col in valid_locations` loop of `minimax`:
state is (remaining columns, best_col, value, alpha); `ev` evaluates a
column under the current alpha/beta window. -/
def ab_max_loop (ev : ℕ → ExtLo → ExtHi → ℤ) (beta : ExtHi) :
    List ℕ → ℕ → ExtLo → ExtLo → ℕ × ExtLo
  | [], best, value, _alpha => (best, value)
  | c :: cs, best, value, alpha =>
    let s := ev c alpha beta
    let best' := if lo_lt value s then c else best
    let value' := if lo_lt value s then some s else value
    let alpha' := lo_max alpha value'
    if alpha_ge_beta alpha' beta then (best', value')
    else ab_max_loop ev beta cs best' value' alpha'

/-- The minimizing `for col in valid_locations` loop of `minimax`:
state is (remaining columns, best_col, value, beta). -/
def ab_min_loop (ev : ℕ → ExtLo → ExtHi → ℤ) (alpha : ExtLo) :
    List ℕ → ℕ → ExtHi → ExtHi → ℕ × ExtHi
  | [], best, value, _beta => (best, value)
  | c :: cs, best, value, beta =>
    let s := ev c alpha beta
    let best' := if hi_gt value s then c else best
    let value' := if hi_gt value s then some s else value
    let beta' := hi_min beta value'
    if alpha_ge_beta alpha beta' then (best', value')
    else ab_min_loop ev alpha cs best' value' beta'

/-- `minimax(board, depth, alpha, beta, maximizing_player)`.
The `[]` branch below is dead code: a non-terminal board always has a
valid column (otherwise the top row is full and `is_draw` holds), see
`Connect4.nonterminal_has_valid`. The running value in a loop over a
nonempty column list is always finite at the end (the first comparison
is against `-inf`), so `getD 0` never applies its default. -/
def minimax (b : Board) : ℕ → ExtLo → ExtHi → Bool → Option ℕ × ℤ
  | 0, _, _, _ =>
    if is_terminal b then
      if check_winner b AI_PIECE then (none, 1000000)
      else if check_winner b PLAYER_PIECE then (none, -1000000)
      else (none, 0)
    else (none, score_position b AI_PIECE)
  | d + 1, alpha, beta, maximizing =>
    if is_terminal b then
      if check_winner b AI_PIECE then (none, 1000000)
      else if check_winner b PLAYER_PIECE then (none, -1000000)
      else (none, 0)
    else
      match get_valid_locations b with
      | [] => (none, 0)
      | c :: cs =>
        if maximizing then
          let r := ab_max_loop
            (fun col a bt => (minimax (child_board b col AI_PIECE) d a bt false).2)
            beta (c :: cs) c none alpha
          (some r.1, r.2.getD 0)
        else
          let r := ab_min_loop
            (fun col a bt => (minimax (child_board b col PLAYER_PIECE) d a bt true).2)
            alpha (c :: cs) c none beta
          (some r.1, r.2.getD 0)

/-- `get_ai_move(board, depth)` -/
def get_ai_move (b : Board) (depth : ℕ) : Option ℕ :=
  match get_valid_locations b with
  | [] => none
  | c :: _ =>
    match (minimax b depth none none true).1 with
    | none => some c
    | some col => some col

/-- `evaluate_board_for_ai(board, depth)` -/
def evaluate_board_for_ai (b : Board) (depth : ℕ) : ℤ :=
  (minimax b depth none none true).2

/-! ### `learning_agent.py` -/

/-- `LearningStats` -/
structure LearningStats where
  games_played : ℕ
  ai_wins : ℕ
  player_wins : ℕ
  draws : ℕ

/-- `LearningStats.ai_win_rate` (a percentage; Python floats become
exact rationals here). -/
def ai_win_rate (s : LearningStats) : ℚ :=
  if s.games_played = 0 then 0
  else (s.ai_wins : ℚ) / (s.games_played : ℚ) * 100

/-- `LearningAgent.current_depth` -/
def current_depth (s : LearningStats) : ℕ :=
  if s.games_played < 5 then 3
  else if ai_win_rate s < 30 then 5
  else if ai_win_rate s < 60 then 4
  else 3

/-- The part of `LearningAgent`'s state that
`after_ai_move` / `after_player_move` read and write. -/
structure EvalState where
  last_ai_eval : Option ℤ
  current_game_mistakes : ℕ
  current_game_blunders : ℕ

/-- `LearningAgent.after_ai_move` -/
def after_ai_move (st : EvalState) (b : Board) : EvalState :=
  { st with last_ai_eval := some (evaluate_board_for_ai b 2) }

/-- `LearningAgent.after_player_move` -/
def after_player_move (st : EvalState) (b : Board) : EvalState :=
  let new_eval := evaluate_board_for_ai b 2
  match st.last_ai_eval with
  | none => { st with last_ai_eval := some new_eval }
  | some last =>
    let delta := new_eval - last
    if delta < 0 then
      { last_ai_eval := some new_eval
        current_game_mistakes := st.current_game_mistakes + 1
        current_game_blunders :=
          st.current_game_blunders + (if delta ≤ -200000 then 1 else 0) }
    else { st with last_ai_eval := some new_eval }

end Connect4

namespace MCTS

/-! ### `mcts_agent.py` (the parts claim C4 is about) -/

/-- `valid_moves`: columns whose top cell is empty, in ascending order. -/
def valid_moves (b : Connect4.Board) : List ℕ :=
  (List.range 7).filter fun c => Connect4.cell b 0 c == 0

/-- `Node.most_visited_child` as a total function on the list of
children, abstracted to (move, visits) pairs: Python's
`max(children, key=...)` returns the first child of maximal visit
count, and raises `ValueError` on an empty sequence (`none` here). -/
def most_visited_child (children : List (ℕ × ℕ)) : Option (ℕ × ℕ) :=
  match children with
  | [] => none
  | x :: xs => some (xs.foldl (fun acc y => if y.2 > acc.2 then y else acc) x)

/-- `MCTSAgent.choose_move` specialized to `max_iters = 0`: with a
zero iteration cap the guard `iters < self.max_iters` of the UCT loop
is `0 < 0 = False`, so the loop body never runs regardless of the time
limit or the random seed, and the root keeps an empty `children` list.
The final `root.most_visited_child()` is then Python's `max` over an
empty sequence. `.ok none` models `return None` (no legal moves);
`.error` models the raised `ValueError`. -/
def choose_move_zero_iters (b : Connect4.Board) : Except String (Option ℕ) :=
  match valid_moves b with
  | [] => Except.ok none
  | _ :: _ =>
    match most_visited_child [] with
    | some ch => Except.ok (some ch.1)
    | none => Except.error "ValueError: max() arg is an empty sequence"

end MCTS

namespace Search

/-! ### `search_algorithms.py`: `normalize_algo` -/

/-- Python string model: a list of characters. -/
abbrev PyStr := List Char

/-- The whitespace set of Python's `str.strip()` — every code point
with `str.isspace()` true: space U+0020, tab U+0009, LF U+000A,
VT U+000B, FF U+000C, CR U+000D, the separator controls
U+001C–U+001F, NEL U+0085, NBSP U+00A0, Ogham space U+1680, the
U+2000–U+200A spaces, line/paragraph separators U+2028/U+2029,
narrow NBSP U+202F, medium mathematical space U+205F, and ideographic
space U+3000. -/
def is_py_space (c : Char) : Bool :=
  decide (c.toNat = 32 ∨ c.toNat = 9 ∨ c.toNat = 10 ∨ c.toNat = 11 ∨
    c.toNat = 12 ∨ c.toNat = 13 ∨ (28 ≤ c.toNat ∧ c.toNat ≤ 31) ∨
    c.toNat = 133 ∨ c.toNat = 160 ∨ c.toNat = 5760 ∨
    (8192 ≤ c.toNat ∧ c.toNat ≤ 8202) ∨ c.toNat = 8232 ∨
    c.toNat = 8233 ∨ c.toNat = 8239 ∨ c.toNat = 8287 ∨
    c.toNat = 12288)

/-- `str.strip()`: drop leading and trailing whitespace. -/
def py_strip (s : PyStr) : PyStr :=
  ((s.dropWhile is_py_space).reverse.dropWhile is_py_space).reverse

/-- `str.lower()` (per-character ASCII case folding; Python also folds
non-ASCII letters, which is immaterial for the ASCII alias table). -/
def py_lower (s : PyStr) : PyStr := s.map Char.toLower

/-- The characters removed by the three `replace(x, "")` calls. -/
def is_removed (c : Char) : Bool := c == ' ' || c == '-' || c == '_'

/-- `(name or "").strip().lower().replace(" ","").replace("-","").replace("_","")`:
the three successive global replacements remove every occurrence of the
three characters, i.e. one filter. -/
def py_clean (s : PyStr) : PyStr :=
  (py_lower (py_strip s)).filter fun c => !(is_removed c)

/-- The `aliases` dictionary of `normalize_algo`, as an association
list (the keys are pairwise distinct, so lookup order is immaterial). -/
def algo_aliases : List (PyStr × PyStr) :=
  [("dffs".toList, "dfs".toList),
   ("bidirectionalbfs".toList, "bidir".toList),
   ("bidirectional".toList, "bidir".toList),
   ("uniformcostsearch".toList, "ucs".toList),
   ("uniformcost".toList, "ucs".toList),
   ("weightedastar".toList, "wastar".toList),
   ("beamsearch".toList, "beam".toList),
   ("depthlimitedsearch".toList, "dls".toList),
   ("iterativedeepeningdfs".toList, "iddfs".toList),
   ("stochasticdfs".toList, "sdfs".toList),
   ("randomwalk".toList, "rwalk".toList),
   ("hillclimb".toList, "hill".toList),
   ("hillclimbing".toList, "hill".toList),
   ("randomrestarthillclimb".toList, "rrhill".toList),
   ("randomrestarthillclimbing".toList, "rrhill".toList),
   ("simulatedannealing".toList, "anneal".toList),
   ("idastar".toList, "idastar".toList),
   ("id a*".toList, "idastar".toList),
   ("ida*".toList, "idastar".toList)]

/-- `aliases.get(n, n)` -/
def alias_get (n : PyStr) : PyStr :=
  match algo_aliases.find? (fun p => p.1 == n) with
  | some p => p.2
  | none => n

/-- `normalize_algo` -/
def normalize_algo (s : PyStr) : PyStr := alias_get (py_clean s)

end Search

namespace Search

/-! ### `search_algorithms.py`: grid model and shared helpers

Modelling conventions for this module:
* Coordinates are `ℤ × ℤ` (Python int tuples; callers may pass
  out-of-range coordinates).
* The Python dictionaries `parent`, `dist`, `g_score`, `best_depth`
  become functions into `Option _` (`none` = key absent); sets become
  functions into `Bool`.
* Heuristic functions are an explicit parameter `hf : Coord → Coord → ℚ`
  abstracting the float-valued functions `get_heuristic_fn` returns
  (`h_manhattan` is also given concretely; `h_euclidean`'s float square
  root has no shallow embedding, so theorems quantify over `hf`).
* `heapq` holds tuples ordered lexicographically; all entries pushed by
  these algorithms are pairwise distinct tuples, so a pop is exactly
  "remove the lexicographically least entry".
* Randomness (`random.Random(None)`, seeded from the OS) is an oracle
  `rng : ℕ → ℕ` consumed at an incrementing position; `random()`
  comparisons against float expressions are oracle-driven Booleans.
* `while` loops take a `fuel` argument; the claims are proved for every
  fuel, and a Python run that terminates agrees with the model at every
  sufficiently large fuel.
-/

abbrev Coord := ℤ × ℤ
abbrev Grid := List (List ℕ)

/-- `len(grid)` -/
def grid_rows (g : Grid) : ℕ := g.length

/-- `len(grid[0])` (Python raises on an empty grid). -/
def grid_cols (g : Grid) : ℕ := (g.headD []).length

/-- `in_bounds(r, c, rows, cols)` -/
def in_bounds (r c : ℤ) (rows cols : ℕ) : Bool :=
  decide (0 ≤ r) && decide (r < rows) && decide (0 ≤ c) && decide (c < cols)

/-- `grid[r][c]`; only evaluated in bounds by the suite. -/
def grid_cell (g : Grid) (r c : ℤ) : ℕ :=
  (g.getD r.toNat []).getD c.toNat 0

/-- `is_wall(grid, r, c)` -/
def is_wall (g : Grid) (r c : ℤ) : Bool := grid_cell g r c == 1

/-- In bounds and not a wall: exactly the test a candidate neighbor
must pass in `neighbors_4`. -/
def ok_cell (g : Grid) (x : Coord) : Bool :=
  in_bounds x.1 x.2 (grid_rows g) (grid_cols g) && !(is_wall g x.1 x.2)

/-- `neighbors_4(grid, node)`: up, down, left, right, filtered. -/
def neighbors_4 (g : Grid) (node : Coord) : List Coord :=
  [(node.1 - 1, node.2), (node.1 + 1, node.2),
   (node.1, node.2 - 1), (node.1, node.2 + 1)].filter fun p => ok_cell g p

/-- 4-adjacency of two coordinates (they differ by one step in exactly
one axis). -/
def adj4 (x y : Coord) : Prop :=
  (x.1 = y.1 ∧ (x.2 = y.2 + 1 ∨ x.2 + 1 = y.2)) ∨
  (x.2 = y.2 ∧ (x.1 = y.1 + 1 ∨ x.1 + 1 = y.1))

instance (x y : Coord) : Decidable (adj4 x y) := by
  unfold adj4; infer_instance

/-- A Python dict from coordinates to optional parent coordinates:
`none` = key absent, `some none` = key present with value `None`. -/
abbrev PMap := Coord → Option (Option Coord)

/-- `parent[x] = v` -/
def pupd (p : PMap) (x : Coord) (v : Option Coord) : PMap :=
  fun y => if y = x then some v else p y

/-- `{start: None}` -/
def pinit (start : Coord) : PMap :=
  fun y => if y = start then some none else none

/-- `parent.get(cur)`: `None` when the key is absent or its value is
`None`. -/
def pget (p : PMap) (x : Coord) : Option Coord :=
  match p x with
  | none => none
  | some v => v

/-- The `while cur is not None` walk of `reconstruct_path`, from `cur`
along parent links, `fuel`-bounded (Python loops forever on a cyclic
map; the suite never produces one). Returns the visited chain in walk
order. -/
def parent_walk (p : PMap) : ℕ → Coord → Option (List Coord)
  | 0, _ => none
  | fuel + 1, cur =>
    match pget p cur with
    | none => some [cur]
    | some y => (parent_walk p fuel y).map fun l => cur :: l

/-- `reconstruct_path(parent, start, goal)`. -/
def reconstruct_path (p : PMap) (start goal : Coord) (fuel : ℕ) : List Coord :=
  if p goal = none then []
  else
    match parent_walk p fuel goal with
    | none => []
    | some chain =>
      match chain.reverse with
      | [] => []
      | x :: xs => if x = start then x :: xs else []

/-- `h_manhattan` (integer-valued, embedded into `ℚ` as the suite's
float type). -/
def h_manhattan (a b : Coord) : ℚ := ((a.1 - b.1).natAbs + (a.2 - b.2).natAbs : ℕ)

/-- Lexicographic order on coordinates (Python tuple comparison). -/
def coord_le (a b : Coord) : Bool :=
  decide (a.1 < b.1) || (a.1 == b.1 && decide (a.2 ≤ b.2))

/-- Order on `(g, node)` entries of the UCS heap. -/
def ucs_le (a b : ℕ × Coord) : Bool :=
  decide (a.1 < b.1) || (a.1 == b.1 && coord_le a.2 b.2)

/-- Order on `(h, node)` entries of the greedy heap. -/
def greedy_le (a b : ℚ × Coord) : Bool :=
  decide (a.1 < b.1) || (a.1 == b.1 && coord_le a.2 b.2)

/-- Order on `(f, g, node)` entries of the A* heaps. -/
def astar_le (a b : ℚ × ℕ × Coord) : Bool :=
  decide (a.1 < b.1) || (a.1 == b.1 && ucs_le a.2 b.2)

/-- `heapq.heappop`: remove and return the least entry (entries are
pairwise distinct tuples, so the least is unique). -/
def pq_pop_min {α : Type} [DecidableEq α] (le : α → α → Bool) :
    List α → Option (α × List α)
  | [] => none
  | x :: xs =>
    let m := xs.foldl (fun acc y => if le acc y then acc else y) x
    some (m, (x :: xs).erase m)

/-- One oracle draw used as `random.choice(l)` (uniform index). -/
def rng_choice (rng : ℕ → ℕ) (k : ℕ) (l : List Coord) : Coord :=
  l.getD (rng k % l.length) (0, 0)

/-- One oracle draw used as a Boolean for a `random.random() < x`
comparison whose right-hand side is a float expression. -/
def rng_coin (rng : ℕ → ℕ) (k : ℕ) : Bool := rng k % 2 == 0

/-- `random.shuffle`: an oracle-driven permutation (repeated uniform
selection without replacement, one draw per element). -/
def rng_shuffle (rng : ℕ → ℕ) (k : ℕ) (l : List Coord) : List Coord :=
  match hl : l with
  | [] => []
  | a :: rest =>
    let i := rng k % (a :: rest).length
    (a :: rest).getD i (0, 0) ::
      rng_shuffle rng (k + 1) ((a :: rest).eraseIdx i)
  termination_by l.length
  decreasing_by
    subst hl
    rw [List.length_eraseIdx_of_lt (Nat.mod_lt _ (by simp))]
    simp

end Search

namespace Search

/-! ### Classic searches -/

/-- State of the `bfs` while-loop. -/
structure BfsState where
  q : List Coord
  parent : PMap
  visited : List Coord

/-- The `for nb in neighbors_4(...)` body of `bfs`. -/
def bfs_relax (cur : Coord) (st : BfsState) (nb : Coord) : BfsState :=
  if st.parent nb = none then
    { q := st.q ++ [nb], parent := pupd st.parent nb (some cur),
      visited := st.visited ++ [nb] }
  else st

/-- The `while q` loop of `bfs`. -/
def bfs_loop (g : Grid) (goal : Coord) : ℕ → BfsState → BfsState
  | 0, st => st
  | fuel + 1, st =>
    match st.q with
    | [] => st
    | cur :: q_rest =>
      if cur = goal then st
      else bfs_loop g goal fuel
        ((neighbors_4 g cur).foldl (bfs_relax cur) { st with q := q_rest })

/-- `bfs(grid, start, goal)` -/
def bfs (g : Grid) (start goal : Coord) (fuel : ℕ) : List Coord × PMap :=
  let st := bfs_loop g goal fuel ⟨[start], pinit start, [start]⟩
  (st.visited, st.parent)

/-- State of the `dfs` while-loop (the stack's head is its top, i.e.
the last-appended Python element). -/
structure DfsState where
  stack : List Coord
  parent : PMap
  visited : List Coord
  seen : Coord → Bool

/-- The push body of `dfs`: assign a parent on first discovery, always
push. Folding this over the reversed neighbor list reproduces Python's
`for nb in reversed(...): stack.append(nb)` (top = first neighbor). -/
def dfs_push (cur : Coord) (st : DfsState) (nb : Coord) : DfsState :=
  { st with
    parent := if st.parent nb = none then pupd st.parent nb (some cur)
              else st.parent
    stack := nb :: st.stack }

/-- The `while stack` loop of `dfs`. -/
def dfs_loop (g : Grid) (goal : Coord) : ℕ → DfsState → DfsState
  | 0, st => st
  | fuel + 1, st =>
    match st.stack with
    | [] => st
    | cur :: rest =>
      if st.seen cur then dfs_loop g goal fuel { st with stack := rest }
      else
        let st1 := { st with
          stack := rest
          seen := (fun y => y == cur || st.seen y)
          visited := st.visited ++ [cur] }
        if cur = goal then st1
        else dfs_loop g goal fuel
          ((neighbors_4 g cur).reverse.foldl (dfs_push cur) st1)

/-- `dfs(grid, start, goal)` -/
def dfs (g : Grid) (start goal : Coord) (fuel : ℕ) : List Coord × PMap :=
  let st := dfs_loop g goal fuel ⟨[start], pinit start, [], fun _ => false⟩
  (st.visited, st.parent)

/-- State of the `ucs_or_dijkstra` while-loop. -/
structure UcsState where
  pq : List (ℕ × Coord)
  parent : PMap
  dist : Coord → Option ℕ
  vset : Coord → Bool
  visited : List Coord

/-- The relaxation body of `ucs_or_dijkstra`. -/
def ucs_relax (cur : Coord) (gval : ℕ) (st : UcsState) (nb : Coord) : UcsState :=
  let ng := gval + 1
  let upd : Bool :=
    match st.dist nb with
    | none => true
    | some d => decide (ng < d)
  if upd then
    { st with
      dist := (fun y => if y = nb then some ng else st.dist y)
      parent := pupd st.parent nb (some cur)
      pq := st.pq ++ [(ng, nb)] }
  else st

/-- The `while pq` loop of `ucs_or_dijkstra`. -/
def ucs_loop (g : Grid) (goal : Coord) : ℕ → UcsState → UcsState
  | 0, st => st
  | fuel + 1, st =>
    match pq_pop_min ucs_le st.pq with
    | none => st
    | some ((gval, cur), pq_rest) =>
      let st0 := { st with pq := pq_rest }
      if st0.vset cur then ucs_loop g goal fuel st0
      else
        let st1 := { st0 with
          vset := (fun y => y == cur || st0.vset y)
          visited := st0.visited ++ [cur] }
        if cur = goal then st1
        else ucs_loop g goal fuel
          ((neighbors_4 g cur).foldl (ucs_relax cur gval) st1)

/-- `ucs_or_dijkstra(grid, start, goal)` -/
def ucs_or_dijkstra (g : Grid) (start goal : Coord) (fuel : ℕ) :
    List Coord × PMap :=
  let st := ucs_loop g goal fuel
    ⟨[(0, start)], pinit start,
     (fun y => if y = start then some 0 else none), (fun _ => false), []⟩
  (st.visited, st.parent)

/-- State of the `dls` while-loop. -/
structure DlsState where
  stack : List (Coord × ℕ)
  parent : PMap
  best_depth : Coord → Option ℕ
  visited : List Coord

/-- The push body of `dls` (guarded by the `best_depth` improvement
test, like the UCS relaxation). -/
def dls_push (cur : Coord) (depth : ℕ) (st : DlsState) (nb : Coord) : DlsState :=
  let nd := depth + 1
  let upd : Bool :=
    match st.best_depth nb with
    | none => true
    | some d => decide (nd < d)
  if upd then
    { st with
      best_depth := (fun y => if y = nb then some nd else st.best_depth y)
      parent := pupd st.parent nb (some cur)
      stack := (nb, nd) :: st.stack }
  else st

/-- The `while stack` loop of `dls`; `limit` is `int(params[...])` and
may be negative. -/
def dls_loop (g : Grid) (goal : Coord) (limit : ℤ) : ℕ → DlsState → DlsState
  | 0, st => st
  | fuel + 1, st =>
    match st.stack with
    | [] => st
    | (cur, depth) :: rest =>
      let st1 := { st with stack := rest, visited := st.visited ++ [cur] }
      if cur = goal then st1
      else if limit ≤ (depth : ℤ) then dls_loop g goal limit fuel st1
      else dls_loop g goal limit fuel
        ((neighbors_4 g cur).reverse.foldl (dls_push cur depth) st1)

/-- `dls(grid, start, goal, limit)` -/
def dls (g : Grid) (start goal : Coord) (limit : ℤ) (fuel : ℕ) :
    List Coord × PMap :=
  let st := dls_loop g goal limit fuel
    ⟨[(start, 0)], pinit start,
     (fun y => if y = start then some 0 else none), []⟩
  (st.visited, st.parent)

/-- The `for limit in range(max_depth + 1)` loop of `iddfs`. -/
def iddfs_loop (g : Grid) (start goal : Coord) (fuel : ℕ) :
    List ℕ → List Coord → List Coord × PMap
  | [], total => (total, pinit start)
  | limit :: rest, total =>
    let r := dls g start goal (limit : ℤ) fuel
    let total1 := total ++ r.1
    if r.2 goal ≠ none then (total1, r.2)
    else iddfs_loop g start goal fuel rest total1

/-- `iddfs(grid, start, goal, max_depth)` -/
def iddfs (g : Grid) (start goal : Coord) (max_depth : ℤ) (fuel : ℕ) :
    List Coord × PMap :=
  iddfs_loop g start goal fuel (List.range (max_depth + 1).toNat) []

end Search

namespace Search

/-! ### Bidirectional BFS -/

/-- The inner `for nb in neighbors_4(grid, cur)` loop of one side of
`bidirectional_bfs`: insert fresh neighbors into this side's parent
map/queue and stop at the first one already seen by the other side.
Returns (own parent map, own queue, meet). -/
def bidir_nbs (cur : Coord) (p_other : PMap) :
    List Coord → PMap → List Coord → PMap × List Coord × Option Coord
  | [], p, q => (p, q, none)
  | nb :: rest, p, q =>
    if p nb = none then
      let p1 := pupd p nb (some cur)
      let q1 := q ++ [nb]
      if p_other nb ≠ none then (p1, q1, some nb)
      else bidir_nbs cur p_other rest p1 q1
    else bidir_nbs cur p_other rest p q

/-- One side's `for _ in range(len(q))` layer expansion: `k` is the
layer size captured before the loop. Returns
(queue, own parent map, visited order, meet). -/
def bidir_layer (g : Grid) (p_other : PMap) :
    ℕ → List Coord → PMap → List Coord →
      List Coord × PMap × List Coord × Option Coord
  | 0, q, p, vis => (q, p, vis, none)
  | k + 1, q, p, vis =>
    match q with
    | [] => ([], p, vis, none)
    | cur :: q_rest =>
      let vis1 := vis ++ [cur]
      let r := bidir_nbs cur p_other (neighbors_4 g cur) p q_rest
      match r.2.2 with
      | some m => (r.2.1, r.1, vis1, some m)
      | none => bidir_layer g p_other k r.2.1 r.1 vis1

/-- The `while q1 and q2` loop of `bidirectional_bfs`. Returns
(visited order, parent1, parent2, meet). -/
def bidir_loop (g : Grid) :
    ℕ → List Coord → List Coord → PMap → PMap → List Coord →
      List Coord × PMap × PMap × Option Coord
  | 0, _, _, p1, p2, vis => (vis, p1, p2, none)
  | fuel + 1, q1, q2, p1, p2, vis =>
    if q1 = [] ∨ q2 = [] then (vis, p1, p2, none)
    else
      let r1 := bidir_layer g p2 q1.length q1 p1 vis
      match r1.2.2.2 with
      | some m => (r1.2.2.1, r1.2.1, p2, some m)
      | none =>
        let r2 := bidir_layer g r1.2.1 q2.length q2 p2 r1.2.2.1
        match r2.2.2.2 with
        | some m => (r2.2.2.1, r1.2.1, r2.2.1, some m)
        | none => bidir_loop g fuel r1.1 r2.1 r1.2.1 r2.2.1 r2.2.2.1

/-- The final `parent = {start: None}; for i in range(1, len(full_path)):
parent[full_path[i]] = full_path[i-1]` rebuild. -/
def rebuild_parent (start : Coord) (full_path : List Coord) : PMap :=
  (full_path.zip full_path.tail).foldl
    (fun p pr => pupd p pr.2 (some pr.1)) (pinit start)

/-- `bidirectional_bfs(grid, start, goal)`: run the two-sided loop; on
a meet, `full_path = path1 + reversed-back-half minus the duplicated
meet`, and the returned parent map is rebuilt along it. -/
def bidirectional_bfs (g : Grid) (start goal : Coord) (fuel : ℕ) :
    List Coord × PMap :=
  if start = goal then ([start], pinit start)
  else
    match bidir_loop g fuel [start] [goal] (pinit start) (pinit goal) [] with
    | (vis, p1, _, none) => (vis, p1)
    | (vis, p1, p2, some m) =>
      (vis, rebuild_parent start
        (reconstruct_path p1 start m fuel ++
          ((reconstruct_path p2 goal m fuel).reverse).tail))

/-! ### Informed searches: greedy best-first, A*, weighted A* -/

/-- State of the `greedy_best_first` while-loop. -/
structure GreedyState where
  pq : List (ℚ × Coord)
  parent : PMap
  seen : Coord → Bool
  visited : List Coord

/-- The neighbor body of `greedy_best_first`. -/
def greedy_relax (goal : Coord) (hf : Coord → Coord → ℚ) (cur : Coord)
    (st : GreedyState) (nb : Coord) : GreedyState :=
  if st.seen nb then st
  else
    { st with
      seen := (fun y => y == nb || st.seen y)
      parent := pupd st.parent nb (some cur)
      pq := st.pq ++ [(hf nb goal, nb)] }

/-- The `while pq` loop of `greedy_best_first`. -/
def greedy_loop (g : Grid) (goal : Coord) (hf : Coord → Coord → ℚ) :
    ℕ → GreedyState → GreedyState
  | 0, st => st
  | fuel + 1, st =>
    match pq_pop_min greedy_le st.pq with
    | none => st
    | some ((_, cur), pq_rest) =>
      let st1 := { st with pq := pq_rest, visited := st.visited ++ [cur] }
      if cur = goal then st1
      else greedy_loop g goal hf fuel
        ((neighbors_4 g cur).foldl (greedy_relax goal hf cur) st1)

/-- `greedy_best_first(grid, start, goal, h_fn)` -/
def greedy_best_first (g : Grid) (start goal : Coord)
    (hf : Coord → Coord → ℚ) (fuel : ℕ) : List Coord × PMap :=
  let st := greedy_loop g goal hf fuel
    ⟨[(hf start goal, start)], pinit start,
     (fun y => y == start), []⟩
  (st.visited, st.parent)

/-- State of the `astar` / `weighted_astar` while-loops. -/
structure AstarState where
  pq : List (ℚ × ℕ × Coord)
  parent : PMap
  g_score : Coord → Option ℕ
  vset : Coord → Bool
  visited : List Coord

/-- The relaxation body of `astar` / `weighted_astar` with weight `w`
(plain A* is the `w = 1` instance of the priority formula
`f = ng + w * h`). -/
def astar_relax (goal : Coord) (hf : Coord → Coord → ℚ) (w : ℚ)
    (cur : Coord) (gval : ℕ) (st : AstarState) (nb : Coord) : AstarState :=
  let ng := gval + 1
  let upd : Bool :=
    match st.g_score nb with
    | none => true
    | some d => decide (ng < d)
  if upd then
    { st with
      g_score := (fun y => if y = nb then some ng else st.g_score y)
      parent := pupd st.parent nb (some cur)
      pq := st.pq ++ [((ng : ℚ) + w * hf nb goal, ng, nb)] }
  else st

/-- The shared `while pq` loop of `astar` / `weighted_astar`. -/
def astar_loop (g : Grid) (goal : Coord) (hf : Coord → Coord → ℚ) (w : ℚ) :
    ℕ → AstarState → AstarState
  | 0, st => st
  | fuel + 1, st =>
    match pq_pop_min astar_le st.pq with
    | none => st
    | some ((_, gval, cur), pq_rest) =>
      let st0 := { st with pq := pq_rest }
      if st0.vset cur then astar_loop g goal hf w fuel st0
      else
        let st1 := { st0 with
          vset := (fun y => y == cur || st0.vset y)
          visited := st0.visited ++ [cur] }
        if cur = goal then st1
        else astar_loop g goal hf w fuel
          ((neighbors_4 g cur).foldl (astar_relax goal hf w cur gval) st1)

/-- `astar(grid, start, goal, h_fn)` (priority `f = g + h`). -/
def astar (g : Grid) (start goal : Coord) (hf : Coord → Coord → ℚ)
    (fuel : ℕ) : List Coord × PMap :=
  let st := astar_loop g goal hf 1 fuel
    ⟨[(hf start goal, 0, start)], pinit start,
     (fun y => if y = start then some 0 else none), (fun _ => false), []⟩
  (st.visited, st.parent)

/-- `weighted_astar(grid, start, goal, h_fn, w)`: the first statement
clamps `w = max(1.0, float(w))`, then runs A* with priority
`f = g + w * h`. -/
def weighted_astar (g : Grid) (start goal : Coord)
    (hf : Coord → Coord → ℚ) (w : ℚ) (fuel : ℕ) : List Coord × PMap :=
  let w1 := max 1 w
  let st := astar_loop g goal hf w1 fuel
    ⟨[(w1 * hf start goal, 0, start)], pinit start,
     (fun y => if y = start then some 0 else none), (fun _ => false), []⟩
  (st.visited, st.parent)

end Search

namespace Search

/-! ### IDA* -/

/-- `min` over `float` values where `none` is `float('inf')`. -/
def minq (a b : Option ℚ) : Option ℚ :=
  match a, b with
  | none, b => b
  | a, none => a
  | some x, some y => some (min x y)

mutual

/-- The recursive `search(node, g, bound, seen)` of `ida_star`; state
threads (parent, visited); returns `(t, found, parent, visited)`.
The recursion depth is bounded by the size of `seen`, which grows by
one per level, so any `fuel` beyond the number of grid cells is never
exhausted; claims are proved for every fuel. -/
def ida_search (g : Grid) (goal : Coord) (hf : Coord → Coord → ℚ)
    (bound : ℚ) :
    ℕ → Coord → ℕ → (Coord → Bool) → PMap → List Coord →
      Option ℚ × Bool × PMap × List Coord
  | 0, _, _, _, p, vis => (none, false, p, vis)
  | fuel + 1, node, gval, seen, p, vis =>
    let f := (gval : ℚ) + hf node goal
    if bound < f then (some f, false, p, vis)
    else
      let vis1 := vis ++ [node]
      if node = goal then (some f, true, p, vis1)
      else
        ida_children g goal hf bound fuel node gval seen
          (neighbors_4 g node) none p vis1
  termination_by fuel _ _ _ _ _ => (fuel, 0, 0)

/-- The `for nb in neighbors_4(...)` loop inside `search`: skip seen
neighbors, set `parent[nb] = node`, recurse with `nb` added to `seen`
(removing it afterwards restores exactly the caller's `seen`, so the
same `seen` is reused for the next sibling). -/
def ida_children (g : Grid) (goal : Coord) (hf : Coord → Coord → ℚ)
    (bound : ℚ) :
    ℕ → Coord → ℕ → (Coord → Bool) → List Coord → Option ℚ → PMap →
      List Coord → Option ℚ × Bool × PMap × List Coord
  | _, _, _, _, [], minOver, p, vis => (minOver, false, p, vis)
  | fuel, node, gval, seen, nb :: rest, minOver, p, vis =>
    if seen nb then
      ida_children g goal hf bound fuel node gval seen rest minOver p vis
    else
      let p1 := pupd p nb (some node)
      let r := ida_search g goal hf bound fuel nb (gval + 1)
        (fun y => y == nb || seen y) p1 vis
      if r.2.1 then r
      else
        ida_children g goal hf bound fuel node gval seen rest
          (minq minOver r.1) r.2.2.1 r.2.2.2
  termination_by fuel _ _ _ nbs _ _ _ => (fuel, 1, nbs.length)

end

/-- The `for _ in range(max_iters)` bound-raising loop of `ida_star`. -/
def ida_outer (g : Grid) (start goal : Coord) (hf : Coord → Coord → ℚ)
    (fuel : ℕ) : ℕ → ℚ → PMap → List Coord → List Coord × PMap
  | 0, _, p, vis => (vis, p)
  | iters + 1, bound, p, vis =>
    let r := ida_search g goal hf bound fuel start 0
      (fun y => y == start) p vis
    if r.2.1 then (r.2.2.2, r.2.2.1)
    else
      match r.1 with
      | none => (r.2.2.2, r.2.2.1)
      | some t1 => ida_outer g start goal hf fuel iters t1 r.2.2.1 r.2.2.2

/-- `ida_star(grid, start, goal, h_fn)` with its default
`max_iters = 20000`. -/
def ida_star (g : Grid) (start goal : Coord) (hf : Coord → Coord → ℚ)
    (fuel : ℕ) : List Coord × PMap :=
  ida_outer g start goal hf fuel 20000 (hf start goal) (pinit start) []

/-! ### Randomized: stochastic DFS, random walk -/

/-- State of the `stochastic_dfs` while-loop; `k` is the oracle
position (the shuffle consumes one draw per neighbor). -/
structure SdfsState where
  stack : List Coord
  parent : PMap
  visited : List Coord
  seen : Coord → Bool
  k : ℕ

/-- The push body of `stochastic_dfs` (pushes in shuffled order, so the
last shuffled neighbor ends on top). -/
def sdfs_push (cur : Coord) (st : SdfsState) (nb : Coord) : SdfsState :=
  { st with
    parent := if st.parent nb = none then pupd st.parent nb (some cur)
              else st.parent
    stack := nb :: st.stack }

/-- The `while stack` loop of `stochastic_dfs`. -/
def sdfs_loop (g : Grid) (goal : Coord) (rng : ℕ → ℕ) :
    ℕ → SdfsState → SdfsState
  | 0, st => st
  | fuel + 1, st =>
    match st.stack with
    | [] => st
    | cur :: rest =>
      if st.seen cur then sdfs_loop g goal rng fuel { st with stack := rest }
      else
        let st1 := { st with
          stack := rest
          seen := (fun y => y == cur || st.seen y)
          visited := st.visited ++ [cur] }
        if cur = goal then st1
        else
          let nbs := rng_shuffle rng st1.k (neighbors_4 g cur)
          sdfs_loop g goal rng fuel
            (nbs.foldl (sdfs_push cur) { st1 with k := st1.k + nbs.length })

/-- `stochastic_dfs(grid, start, goal)` -/
def stochastic_dfs (g : Grid) (start goal : Coord) (rng : ℕ → ℕ)
    (fuel : ℕ) : List Coord × PMap :=
  let st := sdfs_loop g goal rng fuel
    ⟨[start], pinit start, [], (fun _ => false), 0⟩
  (st.visited, st.parent)

/-- The `for _ in range(max_steps)` loop of `random_walk`. -/
def random_walk_loop (g : Grid) (goal : Coord) (rng : ℕ → ℕ) :
    ℕ → ℕ → Coord → PMap → List Coord → List Coord × PMap
  | 0, _, _, p, vis => (vis, p)
  | n + 1, k, cur, p, vis =>
    if cur = goal then (vis, p)
    else
      match neighbors_4 g cur with
      | [] => (vis, p)
      | _ :: _ =>
        let nxt := rng_choice rng k (neighbors_4 g cur)
        let p1 := if p nxt = none then pupd p nxt (some cur) else p
        random_walk_loop g goal rng n (k + 1) nxt p1 (vis ++ [nxt])

/-- `random_walk(grid, start, goal, max_steps)` (`max_steps` comes from
`int(params[...])` and may be negative, giving zero iterations). -/
def random_walk (g : Grid) (start goal : Coord) (max_steps : ℤ)
    (rng : ℕ → ℕ) : List Coord × PMap :=
  random_walk_loop g goal rng max_steps.toNat 0 start (pinit start) [start]

/-! ### Local search: hill climbing, random restarts, annealing -/

/-- `min(nbs, key=...)`: Python returns the first element of minimal
key. -/
def min_by_h (goal : Coord) (hf : Coord → Coord → ℚ) (nb0 : Coord)
    (rest : List Coord) : Coord :=
  rest.foldl (fun acc x => if hf x goal < hf acc goal then x else acc) nb0

/-- The `for _ in range(max_steps)` loop of `steepest_hill_climb`. -/
def hill_loop (g : Grid) (goal : Coord) (hf : Coord → Coord → ℚ) :
    ℕ → Coord → PMap → List Coord → List Coord × PMap
  | 0, _, p, vis => (vis, p)
  | n + 1, cur, p, vis =>
    if cur = goal then (vis, p)
    else
      match neighbors_4 g cur with
      | [] => (vis, p)
      | nb0 :: rest =>
        let best := min_by_h goal hf nb0 rest
        if hf cur goal ≤ hf best goal then (vis, p)
        else
          let p1 := if p best = none then pupd p best (some cur) else p
          hill_loop g goal hf n best p1 (vis ++ [best])

/-- `steepest_hill_climb(grid, start, goal, h_fn, max_steps)` -/
def steepest_hill_climb (g : Grid) (start goal : Coord)
    (hf : Coord → Coord → ℚ) (max_steps : ℤ) : List Coord × PMap :=
  hill_loop g goal hf max_steps.toNat start (pinit start) [start]

/-- The non-wall candidate cells of `random_restart_hill_climb`
(`rng.choice` on an all-wall grid raises in Python; the model's default
element stands in for that unreachable branch). -/
def rr_candidates (g : Grid) : List Coord :=
  (List.range (grid_rows g)).flatMap fun r =>
    (List.range (grid_cols g)).filterMap fun c =>
      if is_wall g r c then none else some ((r : ℤ), (c : ℤ))

/-- The `for _ in range(max(1, restarts))` loop of
`random_restart_hill_climb`; two oracle draws per restart (the coin and
the candidate choice). -/
def rrhill_loop (g : Grid) (start goal : Coord) (hf : Coord → Coord → ℚ)
    (max_steps : ℤ) (rng : ℕ → ℕ) :
    ℕ → ℕ → List Coord → PMap → Coord → List Coord × PMap
  | 0, _, bv, bp, _ => (bv, bp)
  | n + 1, k, bv, bp, be =>
    let s := if rng_coin rng k then start
             else rng_choice rng (k + 1) (rr_candidates g)
    let r := steepest_hill_climb g s goal hf max_steps
    let endc := match r.1.getLast? with
                | some e => e
                | none => s
    let better : Bool := decide (hf endc goal < hf be goal)
    let bv1 := if better then (if r.1 = [] then [s] else r.1) else bv
    let bp1 := if better then r.2 else bp
    let be1 := if better then endc else be
    if be1 = goal then (bv1, bp1)
    else rrhill_loop g start goal hf max_steps rng n (k + 2) bv1 bp1 be1

/-- `random_restart_hill_climb(grid, start, goal, h_fn, restarts,
max_steps)` -/
def random_restart_hill_climb (g : Grid) (start goal : Coord)
    (hf : Coord → Coord → ℚ) (restarts max_steps : ℤ) (rng : ℕ → ℕ) :
    List Coord × PMap :=
  rrhill_loop g start goal hf max_steps rng (max 1 restarts).toNat 0
    [start] (pinit start) start

/-- The `for _ in range(max_steps)` loop of `simulated_annealing`.
A worsening move is accepted when `rng.random() < exp(-delta/temp)`;
that float comparison is modelled by the oracle coin (the temperature
bookkeeping `T *= cooling` feeds only this comparison, so it has no
separate observable effect here). -/
def anneal_loop (g : Grid) (goal : Coord) (hf : Coord → Coord → ℚ)
    (rng : ℕ → ℕ) : ℕ → ℕ → Coord → PMap → List Coord → List Coord × PMap
  | 0, _, _, p, vis => (vis, p)
  | n + 1, k, cur, p, vis =>
    if cur = goal then (vis, p)
    else
      match neighbors_4 g cur with
      | [] => (vis, p)
      | _ :: _ =>
        let nxt := rng_choice rng k (neighbors_4 g cur)
        let delta := hf nxt goal - hf cur goal
        let accept : Bool := if delta < 0 then true else rng_coin rng (k + 1)
        if accept then
          let p1 := if p nxt = none then pupd p nxt (some cur) else p
          anneal_loop g goal hf rng n (k + 2) nxt p1 (vis ++ [nxt])
        else anneal_loop g goal hf rng n (k + 2) cur p vis

/-- `simulated_annealing(grid, start, goal, h_fn, max_steps, ...)` -/
def simulated_annealing (g : Grid) (start goal : Coord)
    (hf : Coord → Coord → ℚ) (max_steps : ℤ) (rng : ℕ → ℕ) :
    List Coord × PMap :=
  anneal_loop g goal hf rng max_steps.toNat 0 start (pinit start) [start]

/-! ### Beam search -/

/-- State of the `beam_search` loop. -/
structure BeamState where
  frontier : List Coord
  parent : PMap
  seen : Coord → Bool
  visited : List Coord

/-- The inner candidate-collection body of `beam_search`. -/
def beam_nb (cur : Coord) (acc : BeamState × List Coord) (nb : Coord) :
    BeamState × List Coord :=
  if acc.1.seen nb then acc
  else
    ({ acc.1 with
        seen := (fun y => y == nb || acc.1.seen y)
        parent := pupd acc.1.parent nb (some cur)
        visited := acc.1.visited ++ [nb] },
     acc.2 ++ [nb])

/-- The `while frontier and steps < max_steps` loop of `beam_search`
(the step counter is the recursion depth). -/
def beam_loop (g : Grid) (goal : Coord) (hf : Coord → Coord → ℚ)
    (K : ℕ) : ℕ → BeamState → BeamState
  | 0, st => st
  | steps + 1, st =>
    if st.frontier = [] then st
    else if goal ∈ st.frontier then st
    else
      let r := st.frontier.foldl
        (fun acc cur => (neighbors_4 g cur).foldl (beam_nb cur) acc)
        (st, [])
      if r.2 = [] then r.1
      else
        let sorted := r.2.mergeSort fun a b => decide (hf a goal ≤ hf b goal)
        beam_loop g goal hf K steps { r.1 with frontier := sorted.take K }

/-- `beam_search(grid, start, goal, h_fn, beam_width)` with its default
`max_steps = 3000`; `K = max(1, int(beam_width))`. -/
def beam_search (g : Grid) (start goal : Coord) (hf : Coord → Coord → ℚ)
    (beam_width : ℤ) : List Coord × PMap :=
  let K := (max 1 beam_width).toNat
  let st := beam_loop g goal hf K 3000
    ⟨[start], pinit start, (fun y => y == start), [start]⟩
  (st.visited, st.parent)

end Search

namespace Search

/-! ### `run_search` -/

/-- The `params` dictionary entries the dispatcher reads (`none` = key
absent, so the Python-side default applies). The `temperature` /
`cooling` floats of simulated annealing feed only the
oracle-modelled acceptance comparison and are omitted. -/
structure SearchParams where
  depth_limit : Option ℤ := none
  weight : Option ℚ := none
  beam_width : Option ℤ := none
  max_steps : Option ℤ := none
  restarts : Option ℤ := none

/-- The `stats` dictionary: either the single-key error dictionary of
the unknown-algorithm branch (carrying the original and normalized
names, as the f-string does) or the run statistics (`runtime_ms`,
wall-clock diagnostics, and the echoed params are omitted). -/
inductive SearchStats where
  | errorStats (algorithm normalized : PyStr)
  | runStats (algorithm : PyStr) (nodes_expanded : ℕ) (path_length : ℕ)
      (found : Bool)

/-- `SearchResult` -/
structure SearchResult where
  ok : Bool
  visited_order : List Coord
  path : List Coord
  stats : SearchStats

/-- The `found` entry of the stats (`false` for the error dictionary,
which has no such key). -/
def SearchResult.found_flag (r : SearchResult) : Bool :=
  match r.stats with
  | SearchStats.runStats _ _ _ f => f
  | SearchStats.errorStats _ _ => false

/-- The canonical names the dispatcher recognizes. -/
def known_algos : List PyStr :=
  ["bfs".toList, "dfs".toList, "dls".toList, "iddfs".toList,
   "ucs".toList, "dijkstra".toList, "bidir".toList, "greedy".toList,
   "astar".toList, "wastar".toList, "idastar".toList, "beam".toList,
   "sdfs".toList, "rwalk".toList, "hill".toList, "rrhill".toList,
   "anneal".toList]

/-- `run_search(grid, start, goal, algorithm, heuristic, params)`.
Beyond the Python signature: `hf` abstracts the heuristic function
`get_heuristic_fn(heuristic)` returns, `rng` is the randomness oracle
and `fuel` bounds the unbounded loops (claims hold for every fuel). -/
def run_search (g : Grid) (start goal : Coord) (algorithm : PyStr)
    (hf : Coord → Coord → ℚ) (params : SearchParams) (rng : ℕ → ℕ)
    (fuel : ℕ) : SearchResult :=
  match
    (if normalize_algo algorithm = "bfs".toList then
      some (bfs g start goal fuel)
    else if normalize_algo algorithm = "dfs".toList then
      some (dfs g start goal fuel)
    else if normalize_algo algorithm = "dls".toList then
      some (dls g start goal (params.depth_limit.getD 25) fuel)
    else if normalize_algo algorithm = "iddfs".toList then
      some (iddfs g start goal (params.depth_limit.getD 80) fuel)
    else if normalize_algo algorithm = "ucs".toList ∨
        normalize_algo algorithm = "dijkstra".toList then
      some (ucs_or_dijkstra g start goal fuel)
    else if normalize_algo algorithm = "bidir".toList then
      some (bidirectional_bfs g start goal fuel)
    else if normalize_algo algorithm = "greedy".toList then
      some (greedy_best_first g start goal hf fuel)
    else if normalize_algo algorithm = "astar".toList then
      some (astar g start goal hf fuel)
    else if normalize_algo algorithm = "wastar".toList then
      some (weighted_astar g start goal hf (params.weight.getD (8 / 5)) fuel)
    else if normalize_algo algorithm = "idastar".toList then
      some (ida_star g start goal hf fuel)
    else if normalize_algo algorithm = "beam".toList then
      some (beam_search g start goal hf (params.beam_width.getD 5))
    else if normalize_algo algorithm = "sdfs".toList then
      some (stochastic_dfs g start goal rng fuel)
    else if normalize_algo algorithm = "rwalk".toList then
      some (random_walk g start goal (params.max_steps.getD 800) rng)
    else if normalize_algo algorithm = "hill".toList then
      some (steepest_hill_climb g start goal hf (params.max_steps.getD 800))
    else if normalize_algo algorithm = "rrhill".toList then
      some (random_restart_hill_climb g start goal hf
        (params.restarts.getD 15) (params.max_steps.getD 400) rng)
    else if normalize_algo algorithm = "anneal".toList then
      some (simulated_annealing g start goal hf (params.max_steps.getD 800)
        rng)
    else none : Option (List Coord × PMap)) with
  | none =>
    ⟨false, [], [], SearchStats.errorStats algorithm (normalize_algo algorithm)⟩
  | some vp =>
    ⟨true, vp.1, reconstruct_path vp.2 start goal fuel,
      SearchStats.runStats (normalize_algo algorithm) vp.1.length
        (if decide (0 < (reconstruct_path vp.2 start goal fuel).length) then
          (reconstruct_path vp.2 start goal fuel).length - 1
        else 0)
        (decide (0 < (reconstruct_path vp.2 start goal fuel).length))⟩

/-! ### The parent-map edge invariant and path validity -/

/-- Every parent edge `parent[x] = y` recorded by the suite joins
4-adjacent coordinates, and its child `x` is an in-bounds non-wall
cell — except possibly the two search endpoints (a wall `start` seeds
every map; `bidirectional_bfs` rebuilds a map whose final edge can end
in a wall `goal`). -/
def EdgesOK (g : Grid) (start goal : Coord) (p : PMap) : Prop :=
  ∀ x y, p x = some (some y) →
    adj4 x y ∧ (ok_cell g x = true ∨ x = start ∨ x = goal)

/-- The amended path-validity property of claim C1: a found path
starts at `start`, ends at `goal`, makes 4-adjacent steps, and every
coordinate on it other than `start` and `goal` is an in-bounds
non-wall cell. -/
def ValidSearchPath (g : Grid) (start goal : Coord)
    (path : List Coord) : Prop :=
  path.headI = start ∧ path.getLast? = some goal ∧
  List.Chain' adj4 path ∧
  ∀ x ∈ path, x ≠ start → x ≠ goal → ok_cell g x = true

end Search

/-! ## Theorems -/

namespace Connect4

/-! ### Helper lemmas for the Connect4 claims -/

theorem scan_open_row_spec (b : Board) (col : ℕ) :
    ∀ r0 r, scan_open_row b col r0 = some r →
      cell b r col = EMPTY ∧ r ≤ r0 ∧
        ∀ r', r < r' → r' ≤ r0 → cell b r' col ≠ EMPTY := by
  intro r0
  induction r0 with
  | zero =>
    intro r h
    unfold scan_open_row at h
    by_cases h0 : cell b 0 col == EMPTY
    · rw [if_pos h0] at h
      cases h
      exact ⟨by simpa using h0, le_refl 0, fun r' h1 h2 => absurd (lt_of_lt_of_le h1 h2) (lt_irrefl 0)⟩
    · rw [if_neg h0] at h; cases h
  | succ r0 ih =>
    intro r h
    unfold scan_open_row at h
    by_cases h0 : cell b (r0 + 1) col == EMPTY
    · rw [if_pos h0] at h
      cases h
      refine ⟨by simpa using h0, le_refl _, fun r' h1 h2 => absurd (lt_of_lt_of_le h1 h2) (lt_irrefl _)⟩
    · rw [if_neg h0] at h
      obtain ⟨he, hle, hfill⟩ := ih r h
      refine ⟨he, Nat.le_succ_of_le hle, fun r' h1 h2 => ?_⟩
      rcases Nat.lt_or_ge r' (r0 + 1) with h3 | h3
      · exact hfill r' h1 (Nat.lt_succ_iff.mp h3)
      · have : r' = r0 + 1 := le_antisymm h2 h3
        subst this
        simpa using h0

theorem getD_set_self_of_lt {α : Type} (l : List α) (i : ℕ) (x d : α)
    (h : i < l.length) : (l.set i x).getD i d = x := by
  rw [List.getD_eq_getElem?_getD, List.getElem?_set_self h]
  rfl

theorem getD_set_ne_of_ne {α : Type} (l : List α) (i j : ℕ) (x d : α)
    (h : i ≠ j) : (l.set i x).getD j d = l.getD j d := by
  rw [List.getD_eq_getElem?_getD, List.getElem?_set_ne h,
    ← List.getD_eq_getElem?_getD]

theorem getD_set_self_of_lt' (l : List (List ℕ)) (i : ℕ) (x d : List ℕ)
    (h : i < l.length) : (l.set i x).getD i d = x := by
  rw [List.getD_eq_getElem?_getD, List.getElem?_set_self h]
  rfl

theorem getD_set_ne_of_ne' (l : List (List ℕ)) (i j : ℕ) (x d : List ℕ)
    (h : i ≠ j) : (l.set i x).getD j d = l.getD j d := by
  rw [List.getD_eq_getElem?_getD, List.getElem?_set_ne h,
    ← List.getD_eq_getElem?_getD]

theorem cell_drop_piece (b : Board) (r col p : ℕ)
    (hwf : BoardWF b) (hr : r < ROWS) (hcol : col < COLS) (r' c' : ℕ) :
    cell (drop_piece b r col p) r' c' =
      if r' = r ∧ c' = col then p else cell b r' c' := by
  obtain ⟨hlen, hrows⟩ := hwf
  have hrb : r < b.length := by rw [hlen]; exact hr
  have hrowlen : (b.getD r []).length = COLS := by
    have hg : b.getD r [] = b[r] := by
      simp [List.getD_eq_getElem?_getD, List.getElem?_eq_getElem hrb]
    rw [hg]
    exact hrows _ (b.getElem_mem hrb)
  unfold cell drop_piece
  by_cases hrr : r' = r
  · subst hrr
    rw [getD_set_self_of_lt' b r' _ [] hrb]
    by_cases hcc : c' = col
    · subst hcc
      rw [getD_set_self_of_lt _ c' _ EMPTY (by rw [hrowlen]; exact hcol),
        if_pos ⟨rfl, rfl⟩]
    · rw [getD_set_ne_of_ne _ col c' _ EMPTY (fun h => hcc h.symm),
        if_neg (fun h => hcc h.2)]
  · rw [getD_set_ne_of_ne' b r r' _ [] (fun h => hrr h.symm),
      if_neg (fun h => hrr h.1)]

/-- Claim C8: on a board whose columns are all bottom-aligned with no
gaps, dropping a (non-empty) piece at the row `get_next_open_row`
returns for a column with an empty top cell preserves the invariant:
every column of the resulting board is still bottom-aligned with no
gaps. -/
theorem drop_at_open_row_preserves_packed
    (b : Board) (col piece r : ℕ)
    (hwf : BoardWF b) (hpacked : BoardPacked b)
    (hcol : col < COLS) (hpiece : piece ≠ EMPTY)
    (htop : cell b 0 col = EMPTY)
    (hrow : get_next_open_row b col = some r) :
    BoardPacked (drop_piece b r col piece) := by
  obtain ⟨hempty, hle, hfill⟩ := scan_open_row_spec b col (ROWS - 1) r hrow
  have hrROWS : r < ROWS := lt_of_le_of_lt hle (by norm_num [ROWS])
  intro c' hc' rr hrr
  rw [cell_drop_piece b r col piece hwf hrROWS hcol,
      cell_drop_piece b r col piece hwf hrROWS hcol]
  by_cases hcc : c' = col
  · subst hcc
    by_cases h1 : rr = r
    · subst h1
      intro _
      rw [if_neg (fun h => by omega)]
      exact hfill (rr + 1) (Nat.lt_succ_self rr) (by unfold ROWS at hrr ⊢; omega)
    · rw [if_neg (fun h => h1 h.1)]
      intro hfilled
      by_cases h2 : rr + 1 = r
      · rw [if_pos ⟨h2, rfl⟩]
        exact hpiece
      · rw [if_neg (fun h => h2 h.1)]
        exact hpacked c' hc' rr hrr hfilled
  · rw [if_neg (fun h => hcc h.2), if_neg (fun h => hcc h.2)]
    exact hpacked c' hc' rr hrr

/-- Witness for C8 at a concrete input: the empty board is packed, its
column 3 has an empty top cell, `get_next_open_row` returns row 5, and
dropping a player piece there keeps the board packed. -/
theorem drop_at_open_row_preserves_packed_witness :
    BoardPacked (drop_piece create_empty_board 5 3 PLAYER_PIECE) :=
  drop_at_open_row_preserves_packed create_empty_board 3 PLAYER_PIECE 5
    (by decide) (by decide) (by decide) (by decide) (by decide) (by decide)

/-- Claim C6: the adaptive depth policy of `current_depth`: depth 3
during the first 5 games, then depth 5 below a 30% AI win rate, depth
4 below 60%, and depth 3 otherwise; in particular depth 3 at zero
games played. -/
theorem current_depth_policy (s : LearningStats) :
    (s.games_played < 5 → current_depth s = 3) ∧
    (5 ≤ s.games_played → ai_win_rate s < 30 → current_depth s = 5) ∧
    (5 ≤ s.games_played → 30 ≤ ai_win_rate s → ai_win_rate s < 60 →
      current_depth s = 4) ∧
    (5 ≤ s.games_played → 60 ≤ ai_win_rate s → current_depth s = 3) ∧
    (s.games_played = 0 → current_depth s = 3) := by
  unfold current_depth
  refine ⟨fun h => by rw [if_pos h], fun h5 h30 => ?_, fun h5 h30 h60 => ?_,
    fun h5 h60 => ?_, fun h0 => by rw [if_pos (by omega)]⟩
  · rw [if_neg (by omega), if_pos h30]
  · rw [if_neg (by omega), if_neg (not_lt.mpr h30), if_pos h60]
  · rw [if_neg (by omega), if_neg (by linarith), if_neg (by linarith)]

/-- Witness for C6 at the checkpoints named by the claim:
0 games → depth 3; 29% win rate over 100 games → depth 5;
59% → depth 4; 100% over 5 games → depth 3. -/
theorem current_depth_policy_witness :
    current_depth ⟨0, 0, 0, 0⟩ = 3 ∧
    current_depth ⟨100, 29, 71, 0⟩ = 5 ∧
    current_depth ⟨100, 59, 41, 0⟩ = 4 ∧
    current_depth ⟨5, 5, 0, 0⟩ = 3 := by
  refine ⟨(current_depth_policy ⟨0, 0, 0, 0⟩).2.2.2.2 rfl,
    (current_depth_policy ⟨100, 29, 71, 0⟩).2.1 (by norm_num)
      (by norm_num [ai_win_rate]),
    (current_depth_policy ⟨100, 59, 41, 0⟩).2.2.1 (by norm_num)
      (by norm_num [ai_win_rate]) (by norm_num [ai_win_rate]),
    (current_depth_policy ⟨5, 5, 0, 0⟩).2.2.2.1 (by norm_num)
      (by norm_num [ai_win_rate])⟩

/-- Counterexample to C5 as stated: a zero delta is non-positive, yet
`after_player_move` does not increment the mistake counter (the code
tests `delta < 0`, strictly). Here the captured evaluation equals the
new evaluation of the same position, so the delta is exactly 0. -/
theorem after_player_move_zero_delta_no_mistake :
    (evaluate_board_for_ai create_empty_board 2 -
      evaluate_board_for_ai create_empty_board 2 = (0 : ℤ)) ∧
    (after_player_move
      ⟨some (evaluate_board_for_ai create_empty_board 2), 0, 0⟩
      create_empty_board).current_game_mistakes = 0 := by
  constructor
  · exact sub_self _
  · unfold after_player_move
    simp

/-- Claim C5 as amended: after a player move, with a previous
evaluation captured, a strictly negative delta increments the mistake
counter by one, and a delta at or below −200000 additionally
increments the blunder counter by one; a non-negative delta leaves
both counters unchanged. -/
theorem after_player_move_mistake_blunder
    (st : EvalState) (b : Board) (last : ℤ)
    (hlast : st.last_ai_eval = some last) :
    (evaluate_board_for_ai b 2 - last < 0 →
      (after_player_move st b).current_game_mistakes =
        st.current_game_mistakes + 1 ∧
      (evaluate_board_for_ai b 2 - last ≤ -200000 →
        (after_player_move st b).current_game_blunders =
          st.current_game_blunders + 1) ∧
      (-200000 < evaluate_board_for_ai b 2 - last →
        (after_player_move st b).current_game_blunders =
          st.current_game_blunders)) ∧
    (0 ≤ evaluate_board_for_ai b 2 - last →
      (after_player_move st b).current_game_mistakes =
        st.current_game_mistakes ∧
      (after_player_move st b).current_game_blunders =
        st.current_game_blunders) := by
  have hred : after_player_move st b =
      if evaluate_board_for_ai b 2 - last < 0 then
        ⟨some (evaluate_board_for_ai b 2), st.current_game_mistakes + 1,
          st.current_game_blunders +
            if evaluate_board_for_ai b 2 - last ≤ -200000 then 1 else 0⟩
      else ⟨some (evaluate_board_for_ai b 2), st.current_game_mistakes,
        st.current_game_blunders⟩ := by
    unfold after_player_move
    rw [hlast]
  rw [hred]
  constructor
  · intro hneg
    rw [if_pos hneg]
    refine ⟨rfl, fun hbl => ?_, fun hbl => ?_⟩
    · rw [if_pos hbl]
    · rw [if_neg (not_le.mpr hbl)]
      exact rfl
  · intro hpos
    rw [if_neg (not_lt.mpr hpos)]
    exact ⟨rfl, rfl⟩

/-- Witness for the amended C5 at concrete inputs: with the captured
evaluation set 200000 above (resp. 1 above) the empty board's shallow
evaluation, the delta is −200000 (resp. −1): the first increments both
counters, the second only the mistake counter. -/
theorem after_player_move_mistake_blunder_witness :
    ((after_player_move
        ⟨some (evaluate_board_for_ai create_empty_board 2 + 200000), 3, 4⟩
        create_empty_board).current_game_mistakes = 4 ∧
     (after_player_move
        ⟨some (evaluate_board_for_ai create_empty_board 2 + 200000), 3, 4⟩
        create_empty_board).current_game_blunders = 5) ∧
    ((after_player_move
        ⟨some (evaluate_board_for_ai create_empty_board 2 + 1), 3, 4⟩
        create_empty_board).current_game_mistakes = 4 ∧
     (after_player_move
        ⟨some (evaluate_board_for_ai create_empty_board 2 + 1), 3, 4⟩
        create_empty_board).current_game_blunders = 4) := by
  have hd1 : evaluate_board_for_ai create_empty_board 2 -
      (evaluate_board_for_ai create_empty_board 2 + 200000) = -200000 := by ring
  have hd2 : evaluate_board_for_ai create_empty_board 2 -
      (evaluate_board_for_ai create_empty_board 2 + 1) = -1 := by ring
  have h1 := after_player_move_mistake_blunder
    ⟨some (evaluate_board_for_ai create_empty_board 2 + 200000), 3, 4⟩
    create_empty_board (evaluate_board_for_ai create_empty_board 2 + 200000) rfl
  have h2 := after_player_move_mistake_blunder
    ⟨some (evaluate_board_for_ai create_empty_board 2 + 1), 3, 4⟩
    create_empty_board (evaluate_board_for_ai create_empty_board 2 + 1) rfl
  rw [hd1] at h1
  rw [hd2] at h2
  obtain ⟨hm1, hb1, _⟩ := h1.1 (by norm_num)
  obtain ⟨hm2, _, hb2⟩ := h2.1 (by norm_num)
  exact ⟨⟨hm1, hb1 (by norm_num)⟩, ⟨hm2, hb2 (by norm_num)⟩⟩

end Connect4

namespace Connect4

theorem ab_max_loop_fst_mem (ev : ℕ → ExtLo → ExtHi → ℤ) (beta : ExtHi) :
    ∀ (cs : List ℕ) (best : ℕ) (value alpha : ExtLo),
      (ab_max_loop ev beta cs best value alpha).1 ∈ best :: cs := by
  intro cs
  induction cs with
  | nil =>
    intro best value alpha
    unfold ab_max_loop
    exact List.mem_cons_self _ _
  | cons c cs ih =>
    intro best value alpha
    by_cases hlt : lo_lt value (ev c alpha beta) = true
    · simp only [ab_max_loop, if_pos hlt]
      by_cases hp : alpha_ge_beta (lo_max alpha (some (ev c alpha beta))) beta = true
      · rw [if_pos hp]
        exact List.mem_cons_of_mem _ (List.mem_cons_self _ _)
      · rw [if_neg hp]
        exact List.mem_cons_of_mem _ (ih c _ _)
    · simp only [ab_max_loop, if_neg hlt]
      by_cases hp : alpha_ge_beta (lo_max alpha value) beta = true
      · rw [if_pos hp]
        exact List.mem_cons_self _ _
      · rw [if_neg hp]
        rcases List.mem_cons.mp (ih best value (lo_max alpha value)) with h | h
        · rw [h]
          exact List.mem_cons_self _ _
        · exact List.mem_cons_of_mem _ (List.mem_cons_of_mem _ h)

theorem ab_min_loop_fst_mem (ev : ℕ → ExtLo → ExtHi → ℤ) (alpha : ExtLo) :
    ∀ (cs : List ℕ) (best : ℕ) (value beta : ExtHi),
      (ab_min_loop ev alpha cs best value beta).1 ∈ best :: cs := by
  intro cs
  induction cs with
  | nil =>
    intro best value beta
    unfold ab_min_loop
    exact List.mem_cons_self _ _
  | cons c cs ih =>
    intro best value beta
    by_cases hlt : hi_gt value (ev c alpha beta) = true
    · simp only [ab_min_loop, if_pos hlt]
      by_cases hp : alpha_ge_beta alpha (hi_min beta (some (ev c alpha beta))) = true
      · rw [if_pos hp]
        exact List.mem_cons_of_mem _ (List.mem_cons_self _ _)
      · rw [if_neg hp]
        exact List.mem_cons_of_mem _ (ih c _ _)
    · simp only [ab_min_loop, if_neg hlt]
      by_cases hp : alpha_ge_beta alpha (hi_min beta value) = true
      · rw [if_pos hp]
        exact List.mem_cons_self _ _
      · rw [if_neg hp]
        rcases List.mem_cons.mp (ih best value (hi_min beta value)) with h | h
        · rw [h]
          exact List.mem_cons_self _ _
        · exact List.mem_cons_of_mem _ (List.mem_cons_of_mem _ h)

theorem minimax_fst_terminal (b : Board) (ht : is_terminal b = true) :
    ∀ (d : ℕ) (alpha : ExtLo) (beta : ExtHi) (m : Bool),
      (minimax b d alpha beta m).1 = none := by
  intro d alpha beta m
  cases d with
  | zero =>
    unfold minimax
    rw [if_pos ht]
    split_ifs <;> rfl
  | succ d =>
    unfold minimax
    rw [if_pos ht]
    split_ifs <;> rfl

theorem minimax_fst_mem (b : Board) (d : ℕ) (alpha : ExtLo) (beta : ExtHi)
    (m : Bool) (c : ℕ) (h : (minimax b d alpha beta m).1 = some c) :
    c ∈ get_valid_locations b := by
  cases d with
  | zero =>
    unfold minimax at h
    split_ifs at h
  | succ d =>
    unfold minimax at h
    by_cases ht : is_terminal b = true
    · rw [if_pos ht] at h
      split_ifs at h
    · rw [if_neg ht] at h
      cases hvl : get_valid_locations b with
      | nil =>
        rw [hvl] at h
        exact absurd (show (none : Option ℕ) = some c from h) (by simp)
      | cons c0 cs =>
        rw [hvl] at h
        cases m with
        | true =>
          have hmem := ab_max_loop_fst_mem
            (fun col a bt => (minimax (child_board b col AI_PIECE) d a bt false).2)
            beta (c0 :: cs) c0 none alpha
          have h' : some ((ab_max_loop
              (fun col a bt => (minimax (child_board b col AI_PIECE) d a bt false).2)
              beta (c0 :: cs) c0 none alpha).1) = some c := h
          rw [← Option.some_inj.mp h']
          rcases List.mem_cons.mp hmem with h1 | h1
          · rw [h1]
            exact List.mem_cons_self _ _
          · exact h1
        | false =>
          have hmem := ab_min_loop_fst_mem
            (fun col a bt => (minimax (child_board b col PLAYER_PIECE) d a bt true).2)
            alpha (c0 :: cs) c0 none beta
          have h' : some ((ab_min_loop
              (fun col a bt => (minimax (child_board b col PLAYER_PIECE) d a bt true).2)
              alpha (c0 :: cs) c0 none beta).1) = some c := h
          rw [← Option.some_inj.mp h']
          rcases List.mem_cons.mp hmem with h1 | h1
          · rw [h1]
            exact List.mem_cons_self _ _
          · exact h1

/-- Claim C7: on any board with at least one legal (non-full) column,
`get_ai_move` returns a legal column at every depth — never a full
column — and when the board is already terminal it falls back to the
first valid column. -/
theorem get_ai_move_valid (b : Board) (depth : ℕ)
    (h : get_valid_locations b ≠ []) :
    ∃ c, get_ai_move b depth = some c ∧ is_valid_move b c = true ∧
      (is_terminal b = true → c = (get_valid_locations b).headI) := by
  cases hvl : get_valid_locations b with
  | nil => exact absurd hvl h
  | cons c0 cs =>
    unfold get_ai_move
    rw [hvl]
    have hc0 : c0 ∈ get_valid_locations b := hvl ▸ List.mem_cons_self _ _
    cases hm : (minimax b depth none none true).1 with
    | none =>
      exact ⟨c0, rfl, (List.mem_filter.mp hc0).2, fun _ => rfl⟩
    | some col =>
      refine ⟨col, rfl, ?_, fun ht => ?_⟩
      · exact (List.mem_filter.mp (minimax_fst_mem b depth none none true col hm)).2
      · rw [minimax_fst_terminal b ht depth none none true] at hm
        cases hm

/-- Witness for C7 at a concrete input: the empty board has a legal
column, and `get_ai_move` at depth 0 picks a legal one. -/
theorem get_ai_move_valid_witness :
    ∃ c, get_ai_move create_empty_board 0 = some c ∧
      is_valid_move create_empty_board c = true ∧
      (is_terminal create_empty_board = true →
        c = (get_valid_locations create_empty_board).headI) :=
  get_ai_move_valid create_empty_board 0 (by decide)

end Connect4

namespace MCTS

/-- Counterexample to C4 as stated: the empty board has seven legal
columns, yet `choose_move` with `max_iters = 0` raises `ValueError`
(`max()` over the root's empty children list) instead of returning a
legal column. -/
theorem choose_move_zero_iters_raises_on_empty_board :
    valid_moves Connect4.create_empty_board ≠ [] ∧
    choose_move_zero_iters Connect4.create_empty_board =
      Except.error "ValueError: max() arg is an empty sequence" := by
  constructor
  · decide
  · rfl

/-- Claim C4 as amended: for every board with at least one non-full
column, `MCTSAgent.choose_move` with `max_iters = 0` raises a
`ValueError` (from `most_visited_child` over an empty children list)
rather than returning a column. -/
theorem choose_move_zero_iters_raises (b : Connect4.Board)
    (h : valid_moves b ≠ []) :
    choose_move_zero_iters b =
      Except.error "ValueError: max() arg is an empty sequence" := by
  unfold choose_move_zero_iters
  cases hv : valid_moves b with
  | nil => exact absurd hv h
  | cons c cs => rfl

/-- Witness for the amended C4 at a concrete input. -/
theorem choose_move_zero_iters_raises_witness :
    choose_move_zero_iters Connect4.create_empty_board =
      Except.error "ValueError: max() arg is an empty sequence" :=
  choose_move_zero_iters_raises Connect4.create_empty_board (by decide)

end MCTS

namespace Search

theorem char_toNat_ofNat_valid (m : ℕ) (h1 : m < 0xd800) :
    (Char.ofNat m).toNat = m := by
  rw [Char.ofNat, dif_pos (Or.inl h1)]
  simp [Char.ofNatAux, Char.toNat, UInt32.toNat, BitVec.toNat_ofNatLt]

theorem toLower_cases (c : Char) :
    Char.toLower c = c ∨
      ((Char.toLower c).toNat = c.toNat + 32 ∧ 65 ≤ c.toNat ∧ c.toNat ≤ 90) := by
  unfold Char.toLower
  by_cases h : 65 ≤ c.toNat ∧ c.toNat ≤ 90
  · rw [if_pos h]
    exact Or.inr ⟨char_toNat_ofNat_valid _ (by omega), h⟩
  · rw [if_neg h]
    exact Or.inl rfl

theorem is_py_space_toNat (c : Char) (h : is_py_space c = true) :
    c.toNat = 32 ∨ c.toNat = 9 ∨ c.toNat = 10 ∨ c.toNat = 11 ∨
      c.toNat = 12 ∨ c.toNat = 13 ∨ (28 ≤ c.toNat ∧ c.toNat ≤ 31) ∨
      c.toNat = 133 ∨ c.toNat = 160 ∨ c.toNat = 5760 ∨
      (8192 ≤ c.toNat ∧ c.toNat ≤ 8202) ∨ c.toNat = 8232 ∨
      c.toNat = 8233 ∨ c.toNat = 8239 ∨ c.toNat = 8287 ∨
      c.toNat = 12288 :=
  of_decide_eq_true h

theorem toLower_idem (c : Char) :
    Char.toLower (Char.toLower c) = Char.toLower c := by
  rcases toLower_cases (Char.toLower c) with h | ⟨h1, h2, h3⟩
  · exact h
  · exfalso
    rcases toLower_cases c with hc | ⟨hc1, hc2, hc3⟩
    · rw [hc] at h2 h3
      have hform : Char.toLower c = Char.ofNat (c.toNat + 32) := by
        unfold Char.toLower
        rw [if_pos ⟨h2, h3⟩]
      rw [hc] at hform
      have hN := congrArg Char.toNat hform
      rw [char_toNat_ofNat_valid _ (by omega)] at hN
      omega
    · omega

theorem dropWhile_eq_self_of_none {p : Char → Bool} {l : List Char}
    (h : ∀ c ∈ l, p c = false) : l.dropWhile p = l := by
  cases l with
  | nil => rfl
  | cons a l =>
    rw [List.dropWhile_cons, if_neg (by rw [h a (List.mem_cons_self a l)]; simp)]

theorem map_eq_self_of_fix {f : Char → Char} {l : List Char}
    (h : ∀ c ∈ l, f c = c) : l.map f = l := by
  induction l with
  | nil => rfl
  | cons a l ih =>
    rw [List.map_cons, h a (List.mem_cons_self a l),
      ih (fun c hc => h c (List.mem_cons_of_mem a hc))]

theorem mem_py_strip {s : PyStr} {c : Char} (h : c ∈ py_strip s) : c ∈ s := by
  unfold py_strip at h
  rw [List.mem_reverse] at h
  have h1 := (List.dropWhile_sublist _).subset h
  rw [List.mem_reverse] at h1
  exact (List.dropWhile_sublist _).subset h1

theorem py_clean_no_space (s : PyStr)
    (h : ∀ c ∈ s, is_py_space c = true → c = ' ') :
    ∀ c ∈ py_clean s, is_py_space c = false := by
  intro c hc
  unfold py_clean at hc
  obtain ⟨hmem, hkeep⟩ := List.mem_filter.mp hc
  obtain ⟨c', hc', rfl⟩ := List.mem_map.mp hmem
  by_contra hws
  rw [Bool.not_eq_false] at hws
  rcases toLower_cases c' with heq | ⟨h1, h2, h3⟩
  · rw [heq] at hws hkeep
    have hsp := h c' (mem_py_strip hc') hws
    subst hsp
    simp [is_removed] at hkeep
  · have := is_py_space_toNat _ hws
    omega

theorem py_clean_no_removed (s : PyStr) :
    ∀ c ∈ py_clean s, is_removed c = false := by
  intro c hc
  obtain ⟨_, hkeep⟩ := List.mem_filter.mp hc
  simpa using hkeep

theorem py_clean_lower_fixed (s : PyStr) :
    ∀ c ∈ py_clean s, Char.toLower c = c := by
  intro c hc
  obtain ⟨hmem, _⟩ := List.mem_filter.mp hc
  obtain ⟨c', _, rfl⟩ := List.mem_map.mp hmem
  exact toLower_idem c'

theorem py_clean_of_py_clean (s : PyStr)
    (h : ∀ c ∈ s, is_py_space c = true → c = ' ') :
    py_clean (py_clean s) = py_clean s := by
  have hnos := py_clean_no_space s h
  have hstrip : py_strip (py_clean s) = py_clean s := by
    unfold py_strip
    rw [dropWhile_eq_self_of_none hnos]
    rw [dropWhile_eq_self_of_none (fun c hc => hnos c (List.mem_reverse.mp hc))]
    exact List.reverse_reverse _
  have hlow : py_lower (py_clean s) = py_clean s := by
    unfold py_lower
    exact map_eq_self_of_fix (py_clean_lower_fixed s)
  calc py_clean (py_clean s)
      = ((py_lower (py_strip (py_clean s))).filter fun c => !(is_removed c)) :=
        rfl
    _ = ((py_lower (py_clean s)).filter fun c => !(is_removed c)) := by
        rw [hstrip]
    _ = ((py_clean s).filter fun c => !(is_removed c)) := by rw [hlow]
    _ = py_clean s := List.filter_eq_self.mpr
        (fun c hc => by rw [py_clean_no_removed s c hc]; simp)

/-- Counterexample to C9 as stated: `normalize_algo` is not idempotent
on every string. On `"a\t_"` cleaning strips nothing, lowercases
nothing, and removes the underscore, exposing a trailing tab:
`normalize_algo "a\t_" = "a\t"`, but a second application strips the
tab: `normalize_algo "a\t" = "a"`. -/
theorem normalize_algo_not_idempotent :
    normalize_algo ("a\t_".toList) = "a\t".toList ∧
    normalize_algo (normalize_algo ("a\t_".toList)) = "a".toList ∧
    normalize_algo (normalize_algo ("a\t_".toList)) ≠
      normalize_algo ("a\t_".toList) := by
  refine ⟨by decide, by decide, by decide⟩

/-- Claim C9 as amended: `normalize_algo` is idempotent on every input
whose whitespace characters are all plain spaces (the failure needs a
non-space whitespace character such as a tab that a removed `' '`,
`'-'` or `'_'` shields from the initial strip); and every canonical
name the alias table maps to is a fixed point of `normalize_algo`. -/
theorem normalize_algo_idem :
    (∀ s : PyStr, (∀ c ∈ s, is_py_space c = true → c = ' ') →
      normalize_algo (normalize_algo s) = normalize_algo s) ∧
    (∀ p ∈ algo_aliases, normalize_algo p.2 = p.2) := by
  have hfix : ∀ p ∈ algo_aliases, normalize_algo p.2 = p.2 := by decide
  refine ⟨fun s h => ?_, hfix⟩
  unfold normalize_algo alias_get
  cases hf : algo_aliases.find? (fun p => p.1 == py_clean s) with
  | none =>
    rw [py_clean_of_py_clean s h, hf]
  | some p =>
    have hp : p ∈ algo_aliases := List.mem_of_find?_eq_some hf
    have := hfix p hp
    unfold normalize_algo alias_get at this
    exact this

/-- Witness for the amended C9 at concrete inputs: a space/hyphen-only
alias of weighted A* is normalized idempotently, and the canonical
name `"bidir"` is a fixed point. -/
theorem normalize_algo_idem_witness :
    normalize_algo (normalize_algo ("Weighted A-Star".toList)) =
      normalize_algo ("Weighted A-Star".toList) ∧
    normalize_algo ("bidir".toList) = "bidir".toList :=
  ⟨normalize_algo_idem.1 ("Weighted A-Star".toList) (by decide),
   normalize_algo_idem.2 ("bidirectionalbfs".toList, "bidir".toList) (by decide)⟩

end Search

namespace Search

/-! ### Generic parent-map lemmas -/

theorem adj4_symm {x y : Coord} (h : adj4 x y) : adj4 y x := by
  obtain ⟨x1, x2⟩ := x
  obtain ⟨y1, y2⟩ := y
  unfold adj4 at h ⊢
  dsimp only at h ⊢
  omega

theorem adj4_ne {x y : Coord} (h : adj4 x y) : x ≠ y := by
  obtain ⟨x1, x2⟩ := x
  obtain ⟨y1, y2⟩ := y
  unfold adj4 at h
  dsimp only at h
  simp only [ne_eq, Prod.mk.injEq, not_and]
  omega

theorem mem_neighbors_4 {g : Grid} {cur nb : Coord}
    (h : nb ∈ neighbors_4 g cur) : adj4 nb cur ∧ ok_cell g nb = true := by
  unfold neighbors_4 at h
  obtain ⟨hmem, hok⟩ := List.mem_filter.mp h
  refine ⟨?_, hok⟩
  obtain ⟨c1, c2⟩ := cur
  simp only [List.mem_cons, List.not_mem_nil, or_false] at hmem
  unfold adj4
  rcases hmem with rfl | rfl | rfl | rfl <;> dsimp only <;> omega

theorem pupd_keyed {p : PMap} {x : Coord} {v : Option Coord} {y : Coord}
    (h : p y ≠ none) : pupd p x v y ≠ none := by
  unfold pupd
  split_ifs <;> simp_all

theorem pupd_keyed_self (p : PMap) (x : Coord) (v : Option Coord) :
    pupd p x v x ≠ none := by
  unfold pupd
  rw [if_pos rfl]
  simp

theorem edgesok_pinit (g : Grid) (start goal r : Coord) :
    EdgesOK g start goal (pinit r) := by
  intro x y h
  unfold pinit at h
  split_ifs at h <;> simp_all

/-- Writing `parent[nb] = cur` preserves the edge invariant whenever
`nb` is 4-adjacent to `cur` and `nb` is an admissible child cell. -/
theorem edgesok_pupd {g : Grid} {start goal : Coord} {p : PMap}
    {nb cur : Coord} (h : EdgesOK g start goal p) (hadj : adj4 nb cur)
    (hok : ok_cell g nb = true ∨ nb = start ∨ nb = goal) :
    EdgesOK g start goal (pupd p nb (some cur)) := by
  intro x y hxy
  by_cases hx : x = nb
  · subst hx
    rw [pupd, if_pos rfl] at hxy
    obtain rfl : cur = y := by injection hxy with h1; injection h1
    exact ⟨hadj, hok⟩
  · rw [pupd, if_neg hx] at hxy
    exact h x y hxy

/-- A parent write of a cell drawn from `neighbors_4`. -/
theorem edgesok_pupd_fresh {g : Grid} {start goal : Coord} {p : PMap}
    {nb cur : Coord} (h : EdgesOK g start goal p)
    (hnb : nb ∈ neighbors_4 g cur) :
    EdgesOK g start goal (pupd p nb (some cur)) :=
  edgesok_pupd h (mem_neighbors_4 hnb).1 (Or.inl (mem_neighbors_4 hnb).2)

/-! ### The reconstruct walk -/

theorem pget_eq_some {p : PMap} {c y : Coord} :
    pget p c = some y ↔ p c = some (some y) := by
  unfold pget
  cases h : p c with
  | none => simp
  | some v => cases v <;> simp

theorem parent_walk_spec (p : PMap) :
    ∀ (fuel : ℕ) (c : Coord) (l : List Coord),
      parent_walk p fuel c = some l →
      ∃ l', l = c :: l' ∧
        List.Chain' (fun a b => p a = some (some b)) l := by
  intro fuel
  induction fuel with
  | zero => intro c l h; cases h
  | succ fuel ih =>
    intro c l h
    unfold parent_walk at h
    cases hg : pget p c with
    | none =>
      rw [hg] at h
      obtain rfl : [c] = l := by injection h
      exact ⟨[], rfl, List.chain'_singleton c⟩
    | some y =>
      rw [hg] at h
      have h2 : Option.map (fun l0 => c :: l0) (parent_walk p fuel y) =
          some l := h
      cases hw : parent_walk p fuel y with
      | none => rw [hw] at h2; cases h2
      | some ly =>
        rw [hw] at h2
        obtain rfl : c :: ly = l := by injection h2
        obtain ⟨ly', rfl, hch⟩ := ih y ly hw
        exact ⟨y :: ly', rfl,
          List.chain'_cons.mpr ⟨pget_eq_some.mp hg, hch⟩⟩

theorem chain'_mem_edge {R : Coord → Coord → Prop} :
    ∀ (l : List Coord), List.Chain' R l → ∀ a ∈ l,
      (∃ b, R a b) ∨ l.getLast? = some a := by
  intro l
  induction l with
  | nil => intro _ a ha; cases ha
  | cons x t ih =>
    intro hch a ha
    cases t with
    | nil =>
      rcases List.mem_singleton.mp ha with rfl
      exact Or.inr rfl
    | cons y t2 =>
      obtain ⟨hR, hch2⟩ := List.chain'_cons.mp hch
      rcases List.mem_cons.mp ha with rfl | ha2
      · exact Or.inl ⟨y, hR⟩
      · rcases ih hch2 a ha2 with h | h
        · exact Or.inl h
        · exact Or.inr (by rw [List.getLast?_cons_cons]; exact h)

/-- Main reconstruction lemma: from any parent map satisfying the edge
invariant, `reconstruct_path` returns either the empty list or a valid
path. -/
theorem reconstruct_path_spec (g : Grid) (start goal : Coord) (p : PMap)
    (fuel : ℕ) (h : EdgesOK g start goal p) :
    reconstruct_path p start goal fuel = [] ∨
      ValidSearchPath g start goal (reconstruct_path p start goal fuel) := by
  by_cases hk : p goal = none
  · left
    simp [reconstruct_path, hk]
  · cases hw : parent_walk p fuel goal with
    | none =>
      left
      simp [reconstruct_path, hk, hw]
    | some l =>
      obtain ⟨l', hl, hchain⟩ := parent_walk_spec p fuel goal l hw
      cases hr : l.reverse with
      | nil =>
        left
        simp [reconstruct_path, hk, hw, hr]
      | cons x xs =>
        by_cases hx : x = start
        · right
          have hred : reconstruct_path p start goal fuel = x :: xs := by
            simp [reconstruct_path, hk, hw, hr, hx]
          rw [hred, hx]
          rw [hx] at hr
          have hlast : l.getLast? = some start := by
            rw [← List.head?_reverse, hr]
            rfl
          have hhead : l.head? = some goal := by rw [hl]; rfl
          refine ⟨rfl, ?_, ?_, ?_⟩
          · rw [show (start :: xs) = l.reverse from hr.symm,
              List.getLast?_reverse, hhead]
          · rw [show (start :: xs) = l.reverse from hr.symm]
            rw [List.chain'_reverse]
            exact hchain.imp fun a b hab => adj4_symm (h a b hab).1
          · intro z hz hzs hzg
            have hzl : z ∈ l := by
              rw [← List.mem_reverse, hr]
              exact hz
            rcases chain'_mem_edge l hchain z hzl with ⟨b, hb⟩ | hlz
            · rcases (h z b hb).2 with hok | hzs2 | hzg2
              · exact hok
              · exact absurd hzs2 hzs
              · exact absurd hzg2 hzg
            · rw [hlast] at hlz
              exact absurd (Option.some_inj.mp hlz).symm hzs
        · left
          simp [reconstruct_path, hk, hw, hr, hx]

end Search

namespace Search

/-! ### Per-algorithm edge invariants -/

theorem foldl_min_mem {α : Type} (le : α → α → Bool) :
    ∀ (xs : List α) (x : α),
      xs.foldl (fun acc y => if le acc y then acc else y) x ∈ x :: xs := by
  intro xs
  induction xs with
  | nil => intro x; exact List.mem_cons_self _ _
  | cons y ys ih =>
    intro x
    rw [List.foldl_cons]
    rcases List.mem_cons.mp (ih (if le x y then x else y)) with h | h
    · rw [h]
      split_ifs
      · exact List.mem_cons_self _ _
      · exact List.mem_cons_of_mem _ (List.mem_cons_self _ _)
    · exact List.mem_cons_of_mem _ (List.mem_cons_of_mem _ h)

theorem pq_pop_min_spec {α : Type} [DecidableEq α] (le : α → α → Bool)
    {l rest : List α} {m : α} (h : pq_pop_min le l = some (m, rest)) :
    m ∈ l ∧ ∀ x ∈ rest, x ∈ l := by
  cases l with
  | nil => cases h
  | cons x xs =>
    unfold pq_pop_min at h
    obtain ⟨rfl, rfl⟩ : _ ∧ _ := by
      constructor
      · exact congrArg Prod.fst (Option.some_inj.mp h)
      · exact congrArg Prod.snd (Option.some_inj.mp h)
    exact ⟨foldl_min_mem le xs x, fun z hz => (x :: xs).erase_subset _ hz⟩

theorem bfs_fold_inv (g : Grid) (start goal cur : Coord) (nbs : List Coord)
    (hsub : ∀ nb ∈ nbs, nb ∈ neighbors_4 g cur) :
    ∀ st : BfsState, EdgesOK g start goal st.parent →
      st.parent cur ≠ none → (∀ x ∈ st.q, st.parent x ≠ none) →
      EdgesOK g start goal (nbs.foldl (bfs_relax cur) st).parent ∧
      (∀ x ∈ (nbs.foldl (bfs_relax cur) st).q,
        (nbs.foldl (bfs_relax cur) st).parent x ≠ none) := by
  induction nbs with
  | nil => intro st h1 _ h3; exact ⟨h1, h3⟩
  | cons nb rest ih =>
    intro st h1 hcur h3
    rw [List.foldl_cons]
    by_cases hf : st.parent nb = none
    · have hst1 : bfs_relax cur st nb =
          ⟨st.q ++ [nb], pupd st.parent nb (some cur),
           st.visited ++ [nb]⟩ := by
        unfold bfs_relax
        rw [if_pos hf]
      rw [hst1]
      refine ih (fun z hz => hsub z (List.mem_cons_of_mem _ hz)) _
        (edgesok_pupd_fresh h1 (hsub nb (List.mem_cons_self _ _)))
        (pupd_keyed hcur) ?_
      intro x hx
      rcases List.mem_append.mp hx with hx | hx
      · exact pupd_keyed (h3 x hx)
      · rcases List.mem_singleton.mp hx with rfl
        exact pupd_keyed_self _ _ _
    · have hst1 : bfs_relax cur st nb = st := by
        unfold bfs_relax
        rw [if_neg hf]
      rw [hst1]
      exact ih (fun z hz => hsub z (List.mem_cons_of_mem _ hz)) st h1 hcur h3

theorem bfs_loop_inv (g : Grid) (start goal : Coord) :
    ∀ (fuel : ℕ) (st : BfsState), EdgesOK g start goal st.parent →
      (∀ x ∈ st.q, st.parent x ≠ none) →
      EdgesOK g start goal (bfs_loop g goal fuel st).parent := by
  intro fuel
  induction fuel with
  | zero => intro st h1 _; exact h1
  | succ fuel ih =>
    intro st h1 h2
    cases hq : st.q with
    | nil =>
      simp only [bfs_loop, hq]
      exact h1
    | cons cur q_rest =>
      simp only [bfs_loop, hq]
      by_cases hg : cur = goal
      · rw [if_pos hg]
        exact h1
      · rw [if_neg hg]
        have hcur : st.parent cur ≠ none := h2 cur (by rw [hq]; exact List.mem_cons_self _ _)
        have hrest : ∀ x ∈ q_rest, st.parent x ≠ none := fun x hx =>
          h2 x (by rw [hq]; exact List.mem_cons_of_mem _ hx)
        obtain ⟨ha, hb⟩ := bfs_fold_inv g start goal cur (neighbors_4 g cur)
          (fun _ h => h) { st with q := q_rest } h1 hcur hrest
        exact ih _ ha hb

/-- The parent map `bfs` returns satisfies the edge invariant. -/
theorem bfs_edges (g : Grid) (start goal : Coord) (fuel : ℕ) :
    EdgesOK g start goal (bfs g start goal fuel).2 := by
  unfold bfs
  refine bfs_loop_inv g start goal fuel _ (edgesok_pinit g start goal start) ?_
  intro x hx
  rcases List.mem_singleton.mp hx with rfl
  simp [pinit]

theorem dfs_fold_inv (g : Grid) (start goal cur : Coord) (nbs : List Coord)
    (hsub : ∀ nb ∈ nbs, nb ∈ neighbors_4 g cur) :
    ∀ st : DfsState, EdgesOK g start goal st.parent →
      st.parent cur ≠ none → (∀ x ∈ st.stack, st.parent x ≠ none) →
      EdgesOK g start goal (nbs.foldl (dfs_push cur) st).parent ∧
      (∀ x ∈ (nbs.foldl (dfs_push cur) st).stack,
        (nbs.foldl (dfs_push cur) st).parent x ≠ none) := by
  induction nbs with
  | nil => intro st h1 _ h3; exact ⟨h1, h3⟩
  | cons nb rest ih =>
    intro st h1 hcur h3
    rw [List.foldl_cons]
    by_cases hf : st.parent nb = none
    · have hst1 : dfs_push cur st nb =
          { st with parent := pupd st.parent nb (some cur),
                    stack := nb :: st.stack } := by
        unfold dfs_push
        rw [if_pos hf]
      rw [hst1]
      refine ih (fun z hz => hsub z (List.mem_cons_of_mem _ hz)) _
        (edgesok_pupd_fresh h1 (hsub nb (List.mem_cons_self _ _)))
        (pupd_keyed hcur) ?_
      intro x hx
      rcases List.mem_cons.mp hx with rfl | hx
      · exact pupd_keyed_self _ _ _
      · exact pupd_keyed (h3 x hx)
    · have hst1 : dfs_push cur st nb = { st with stack := nb :: st.stack } := by
        unfold dfs_push
        rw [if_neg hf]
      rw [hst1]
      refine ih (fun z hz => hsub z (List.mem_cons_of_mem _ hz)) _ h1 hcur ?_
      intro x hx
      rcases List.mem_cons.mp hx with rfl | hx
      · exact hf
      · exact h3 x hx

theorem dfs_loop_inv (g : Grid) (start goal : Coord) :
    ∀ (fuel : ℕ) (st : DfsState), EdgesOK g start goal st.parent →
      (∀ x ∈ st.stack, st.parent x ≠ none) →
      EdgesOK g start goal (dfs_loop g goal fuel st).parent := by
  intro fuel
  induction fuel with
  | zero => intro st h1 _; exact h1
  | succ fuel ih =>
    intro st h1 h2
    cases hq : st.stack with
    | nil =>
      simp only [dfs_loop, hq]
      exact h1
    | cons cur rest =>
      simp only [dfs_loop, hq]
      have hcur : st.parent cur ≠ none := h2 cur (by rw [hq]; exact List.mem_cons_self _ _)
      have hrest : ∀ x ∈ rest, st.parent x ≠ none := fun x hx =>
        h2 x (by rw [hq]; exact List.mem_cons_of_mem _ hx)
      by_cases hs : st.seen cur = true
      · rw [if_pos hs]
        exact ih _ h1 hrest
      · rw [if_neg hs]
        by_cases hg : cur = goal
        · rw [if_pos hg]
          exact h1
        · rw [if_neg hg]
          obtain ⟨ha, hb⟩ := dfs_fold_inv g start goal cur
            (neighbors_4 g cur).reverse
            (fun z hz => List.mem_reverse.mp hz)
            { st with
              stack := rest
              seen := (fun y => y == cur || st.seen y)
              visited := st.visited ++ [cur] } h1 hcur hrest
          exact ih _ ha hb

/-- The parent map `dfs` returns satisfies the edge invariant. -/
theorem dfs_edges (g : Grid) (start goal : Coord) (fuel : ℕ) :
    EdgesOK g start goal (dfs g start goal fuel).2 := by
  unfold dfs
  refine dfs_loop_inv g start goal fuel _ (edgesok_pinit g start goal start) ?_
  intro x hx
  rcases List.mem_singleton.mp hx with rfl
  simp [pinit]

end Search

namespace Search

theorem ucs_fold_inv (g : Grid) (start goal cur : Coord) (gval : ℕ)
    (nbs : List Coord) (hsub : ∀ nb ∈ nbs, nb ∈ neighbors_4 g cur) :
    ∀ st : UcsState, EdgesOK g start goal st.parent →
      st.parent cur ≠ none → (∀ e ∈ st.pq, st.parent e.2 ≠ none) →
      EdgesOK g start goal (nbs.foldl (ucs_relax cur gval) st).parent ∧
      (∀ e ∈ (nbs.foldl (ucs_relax cur gval) st).pq,
        (nbs.foldl (ucs_relax cur gval) st).parent e.2 ≠ none) := by
  induction nbs with
  | nil => intro st h1 _ h3; exact ⟨h1, h3⟩
  | cons nb rest ih =>
    intro st h1 hcur h3
    rw [List.foldl_cons]
    by_cases hu : (match st.dist nb with
      | none => true
      | some d => decide (gval + 1 < d)) = true
    · have hst1 : ucs_relax cur gval st nb =
          { st with
            dist := (fun y => if y = nb then some (gval + 1) else st.dist y)
            parent := pupd st.parent nb (some cur)
            pq := st.pq ++ [(gval + 1, nb)] } := by
        unfold ucs_relax
        rw [if_pos hu]
      rw [hst1]
      refine ih (fun z hz => hsub z (List.mem_cons_of_mem _ hz)) _
        (edgesok_pupd_fresh h1 (hsub nb (List.mem_cons_self _ _)))
        (pupd_keyed hcur) ?_
      intro e he
      rcases List.mem_append.mp he with he | he
      · exact pupd_keyed (h3 e he)
      · rcases List.mem_singleton.mp he with rfl
        exact pupd_keyed_self _ _ _
    · have hst1 : ucs_relax cur gval st nb = st := by
        unfold ucs_relax
        rw [if_neg hu]
      rw [hst1]
      exact ih (fun z hz => hsub z (List.mem_cons_of_mem _ hz)) st h1 hcur h3

theorem ucs_loop_inv (g : Grid) (start goal : Coord) :
    ∀ (fuel : ℕ) (st : UcsState), EdgesOK g start goal st.parent →
      (∀ e ∈ st.pq, st.parent e.2 ≠ none) →
      EdgesOK g start goal (ucs_loop g goal fuel st).parent := by
  intro fuel
  induction fuel with
  | zero => intro st h1 _; exact h1
  | succ fuel ih =>
    intro st h1 h2
    cases hp : pq_pop_min ucs_le st.pq with
    | none =>
      simp only [ucs_loop, hp]
      exact h1
    | some pr =>
      obtain ⟨⟨gval, cur⟩, pq_rest⟩ := pr
      simp only [ucs_loop, hp]
      obtain ⟨hm, hsub⟩ := pq_pop_min_spec ucs_le hp
      have hcur : st.parent cur ≠ none := h2 _ hm
      have hrest : ∀ e ∈ pq_rest, st.parent e.2 ≠ none := fun e he =>
        h2 e (hsub e he)
      by_cases hv : st.vset cur = true
      · rw [if_pos hv]
        exact ih _ h1 hrest
      · rw [if_neg hv]
        by_cases hg : cur = goal
        · rw [if_pos hg]
          exact h1
        · rw [if_neg hg]
          obtain ⟨ha, hb⟩ := ucs_fold_inv g start goal cur gval
            (neighbors_4 g cur) (fun _ h => h)
            { st with
              pq := pq_rest
              vset := (fun y => y == cur || st.vset y)
              visited := st.visited ++ [cur] } h1 hcur hrest
          exact ih _ ha hb

/-- The parent map `ucs_or_dijkstra` returns satisfies the edge
invariant. -/
theorem ucs_edges (g : Grid) (start goal : Coord) (fuel : ℕ) :
    EdgesOK g start goal (ucs_or_dijkstra g start goal fuel).2 := by
  unfold ucs_or_dijkstra
  refine ucs_loop_inv g start goal fuel _ (edgesok_pinit g start goal start) ?_
  intro e he
  rcases List.mem_singleton.mp he with rfl
  simp [pinit]

theorem dls_fold_inv (g : Grid) (start goal cur : Coord) (depth : ℕ)
    (nbs : List Coord) (hsub : ∀ nb ∈ nbs, nb ∈ neighbors_4 g cur) :
    ∀ st : DlsState, EdgesOK g start goal st.parent →
      st.parent cur ≠ none → (∀ e ∈ st.stack, st.parent e.1 ≠ none) →
      EdgesOK g start goal (nbs.foldl (dls_push cur depth) st).parent ∧
      (∀ e ∈ (nbs.foldl (dls_push cur depth) st).stack,
        (nbs.foldl (dls_push cur depth) st).parent e.1 ≠ none) := by
  induction nbs with
  | nil => intro st h1 _ h3; exact ⟨h1, h3⟩
  | cons nb rest ih =>
    intro st h1 hcur h3
    rw [List.foldl_cons]
    by_cases hu : (match st.best_depth nb with
      | none => true
      | some d => decide (depth + 1 < d)) = true
    · have hst1 : dls_push cur depth st nb =
          { st with
            best_depth :=
              (fun y => if y = nb then some (depth + 1) else st.best_depth y)
            parent := pupd st.parent nb (some cur)
            stack := (nb, depth + 1) :: st.stack } := by
        unfold dls_push
        rw [if_pos hu]
      rw [hst1]
      refine ih (fun z hz => hsub z (List.mem_cons_of_mem _ hz)) _
        (edgesok_pupd_fresh h1 (hsub nb (List.mem_cons_self _ _)))
        (pupd_keyed hcur) ?_
      intro e he
      rcases List.mem_cons.mp he with rfl | he
      · exact pupd_keyed_self _ _ _
      · exact pupd_keyed (h3 e he)
    · have hst1 : dls_push cur depth st nb = st := by
        unfold dls_push
        rw [if_neg hu]
      rw [hst1]
      exact ih (fun z hz => hsub z (List.mem_cons_of_mem _ hz)) st h1 hcur h3

theorem dls_loop_inv (g : Grid) (start goal : Coord) (limit : ℤ) :
    ∀ (fuel : ℕ) (st : DlsState), EdgesOK g start goal st.parent →
      (∀ e ∈ st.stack, st.parent e.1 ≠ none) →
      EdgesOK g start goal (dls_loop g goal limit fuel st).parent := by
  intro fuel
  induction fuel with
  | zero => intro st h1 _; exact h1
  | succ fuel ih =>
    intro st h1 h2
    cases hq : st.stack with
    | nil =>
      simp only [dls_loop, hq]
      exact h1
    | cons e rest =>
      obtain ⟨cur, depth⟩ := e
      simp only [dls_loop, hq]
      have hcur : st.parent cur ≠ none :=
        h2 (cur, depth) (by rw [hq]; exact List.mem_cons_self _ _)
      have hrest : ∀ e ∈ rest, st.parent e.1 ≠ none := fun e he =>
        h2 e (by rw [hq]; exact List.mem_cons_of_mem _ he)
      by_cases hg : cur = goal
      · rw [if_pos hg]
        exact h1
      · rw [if_neg hg]
        by_cases hd : limit ≤ (depth : ℤ)
        · rw [if_pos hd]
          exact ih _ h1 hrest
        · rw [if_neg hd]
          obtain ⟨ha, hb⟩ := dls_fold_inv g start goal cur depth
            (neighbors_4 g cur).reverse
            (fun z hz => List.mem_reverse.mp hz)
            { st with stack := rest, visited := st.visited ++ [cur] }
            h1 hcur hrest
          exact ih _ ha hb

/-- The parent map `dls` returns satisfies the edge invariant. -/
theorem dls_edges (g : Grid) (start goal : Coord) (limit : ℤ) (fuel : ℕ) :
    EdgesOK g start goal (dls g start goal limit fuel).2 := by
  unfold dls
  refine dls_loop_inv g start goal limit fuel _
    (edgesok_pinit g start goal start) ?_
  intro e he
  rcases List.mem_singleton.mp he with rfl
  simp [pinit]

theorem iddfs_loop_edges (g : Grid) (start goal : Coord) (fuel : ℕ) :
    ∀ (limits : List ℕ) (total : List Coord),
      EdgesOK g start goal (iddfs_loop g start goal fuel limits total).2 := by
  intro limits
  induction limits with
  | nil =>
    intro total
    simp only [iddfs_loop]
    exact edgesok_pinit g start goal start
  | cons limit rest ih =>
    intro total
    simp only [iddfs_loop]
    by_cases hp : (dls g start goal (limit : ℤ) fuel).2 goal ≠ none
    · rw [if_pos hp]
      exact dls_edges g start goal (limit : ℤ) fuel
    · rw [if_neg hp]
      exact ih _

/-- The parent map `iddfs` returns satisfies the edge invariant. -/
theorem iddfs_edges (g : Grid) (start goal : Coord) (max_depth : ℤ)
    (fuel : ℕ) :
    EdgesOK g start goal (iddfs g start goal max_depth fuel).2 := by
  unfold iddfs
  exact iddfs_loop_edges g start goal fuel _ []

end Search

namespace Search

theorem greedy_fold_edges (g : Grid) (A B goal : Coord)
    (hf : Coord → Coord → ℚ) (cur : Coord) (nbs : List Coord)
    (hsub : ∀ nb ∈ nbs, nb ∈ neighbors_4 g cur) :
    ∀ st : GreedyState, EdgesOK g A B st.parent →
      EdgesOK g A B (nbs.foldl (greedy_relax goal hf cur) st).parent := by
  induction nbs with
  | nil => intro st h1; exact h1
  | cons nb rest ih =>
    intro st h1
    rw [List.foldl_cons]
    by_cases hs : st.seen nb = true
    · have hst1 : greedy_relax goal hf cur st nb = st := by
        unfold greedy_relax
        rw [if_pos hs]
      rw [hst1]
      exact ih (fun z hz => hsub z (List.mem_cons_of_mem _ hz)) st h1
    · have hst1 : greedy_relax goal hf cur st nb =
          { st with
            seen := (fun y => y == nb || st.seen y)
            parent := pupd st.parent nb (some cur)
            pq := st.pq ++ [(hf nb goal, nb)] } := by
        unfold greedy_relax
        rw [if_neg hs]
      rw [hst1]
      exact ih (fun z hz => hsub z (List.mem_cons_of_mem _ hz)) _
        (edgesok_pupd_fresh h1 (hsub nb (List.mem_cons_self _ _)))

theorem greedy_loop_edges (g : Grid) (A B goal : Coord)
    (hf : Coord → Coord → ℚ) :
    ∀ (fuel : ℕ) (st : GreedyState), EdgesOK g A B st.parent →
      EdgesOK g A B (greedy_loop g goal hf fuel st).parent := by
  intro fuel
  induction fuel with
  | zero => intro st h1; exact h1
  | succ fuel ih =>
    intro st h1
    cases hp : pq_pop_min greedy_le st.pq with
    | none =>
      simp only [greedy_loop, hp]
      exact h1
    | some pr =>
      obtain ⟨⟨prio, cur⟩, pq_rest⟩ := pr
      simp only [greedy_loop, hp]
      by_cases hg : cur = goal
      · rw [if_pos hg]
        exact h1
      · rw [if_neg hg]
        exact ih _ (greedy_fold_edges g A B goal hf cur (neighbors_4 g cur)
          (fun _ h => h) { st with pq := pq_rest, visited := st.visited ++ [cur] } h1)

/-- The parent map `greedy_best_first` returns satisfies the edge
invariant. -/
theorem greedy_edges (g : Grid) (start goal : Coord)
    (hf : Coord → Coord → ℚ) (fuel : ℕ) :
    EdgesOK g start goal (greedy_best_first g start goal hf fuel).2 := by
  unfold greedy_best_first
  exact greedy_loop_edges g start goal goal hf fuel _
    (edgesok_pinit g start goal start)

theorem astar_fold_edges (g : Grid) (A B goal : Coord)
    (hf : Coord → Coord → ℚ) (w : ℚ) (cur : Coord) (gval : ℕ)
    (nbs : List Coord) (hsub : ∀ nb ∈ nbs, nb ∈ neighbors_4 g cur) :
    ∀ st : AstarState, EdgesOK g A B st.parent →
      EdgesOK g A B (nbs.foldl (astar_relax goal hf w cur gval) st).parent := by
  induction nbs with
  | nil => intro st h1; exact h1
  | cons nb rest ih =>
    intro st h1
    rw [List.foldl_cons]
    by_cases hu : (match st.g_score nb with
      | none => true
      | some d => decide (gval + 1 < d)) = true
    · have hst1 : astar_relax goal hf w cur gval st nb =
          { st with
            g_score := (fun y => if y = nb then some (gval + 1) else st.g_score y)
            parent := pupd st.parent nb (some cur)
            pq := st.pq ++ [(((gval + 1 : ℕ) : ℚ) + w * hf nb goal, gval + 1, nb)] } := by
        unfold astar_relax
        rw [if_pos hu]
      rw [hst1]
      exact ih (fun z hz => hsub z (List.mem_cons_of_mem _ hz)) _
        (edgesok_pupd_fresh h1 (hsub nb (List.mem_cons_self _ _)))
    · have hst1 : astar_relax goal hf w cur gval st nb = st := by
        unfold astar_relax
        rw [if_neg hu]
      rw [hst1]
      exact ih (fun z hz => hsub z (List.mem_cons_of_mem _ hz)) st h1

theorem astar_loop_edges (g : Grid) (A B goal : Coord)
    (hf : Coord → Coord → ℚ) (w : ℚ) :
    ∀ (fuel : ℕ) (st : AstarState), EdgesOK g A B st.parent →
      EdgesOK g A B (astar_loop g goal hf w fuel st).parent := by
  intro fuel
  induction fuel with
  | zero => intro st h1; exact h1
  | succ fuel ih =>
    intro st h1
    cases hp : pq_pop_min astar_le st.pq with
    | none =>
      simp only [astar_loop, hp]
      exact h1
    | some pr =>
      obtain ⟨⟨prio, gval, cur⟩, pq_rest⟩ := pr
      simp only [astar_loop, hp]
      by_cases hv : st.vset cur = true
      · rw [if_pos hv]
        exact ih _ h1
      · rw [if_neg hv]
        by_cases hg : cur = goal
        · rw [if_pos hg]
          exact h1
        · rw [if_neg hg]
          exact ih _ (astar_fold_edges g A B goal hf w cur gval
            (neighbors_4 g cur) (fun _ h => h)
            { st with
              pq := pq_rest
              vset := (fun y => y == cur || st.vset y)
              visited := st.visited ++ [cur] } h1)

/-- The parent map `astar` returns satisfies the edge invariant. -/
theorem astar_edges (g : Grid) (start goal : Coord)
    (hf : Coord → Coord → ℚ) (fuel : ℕ) :
    EdgesOK g start goal (astar g start goal hf fuel).2 := by
  unfold astar
  exact astar_loop_edges g start goal goal hf 1 fuel _
    (edgesok_pinit g start goal start)

/-- The parent map `weighted_astar` returns satisfies the edge
invariant. -/
theorem weighted_astar_edges (g : Grid) (start goal : Coord)
    (hf : Coord → Coord → ℚ) (w : ℚ) (fuel : ℕ) :
    EdgesOK g start goal (weighted_astar g start goal hf w fuel).2 := by
  unfold weighted_astar
  exact astar_loop_edges g start goal goal hf (max 1 w) fuel _
    (edgesok_pinit g start goal start)

theorem beam_fold1_edges (g : Grid) (A B : Coord) (cur : Coord)
    (nbs : List Coord) (hsub : ∀ nb ∈ nbs, nb ∈ neighbors_4 g cur) :
    ∀ acc : BeamState × List Coord, EdgesOK g A B acc.1.parent →
      EdgesOK g A B (nbs.foldl (beam_nb cur) acc).1.parent := by
  induction nbs with
  | nil => intro acc h1; exact h1
  | cons nb rest ih =>
    intro acc h1
    rw [List.foldl_cons]
    by_cases hs : acc.1.seen nb = true
    · have hst1 : beam_nb cur acc nb = acc := by
        unfold beam_nb
        rw [if_pos hs]
      rw [hst1]
      exact ih (fun z hz => hsub z (List.mem_cons_of_mem _ hz)) acc h1
    · have hst1 : beam_nb cur acc nb =
          ({ acc.1 with
              seen := (fun y => y == nb || acc.1.seen y)
              parent := pupd acc.1.parent nb (some cur)
              visited := acc.1.visited ++ [nb] },
           acc.2 ++ [nb]) := by
        unfold beam_nb
        rw [if_neg hs]
      rw [hst1]
      exact ih (fun z hz => hsub z (List.mem_cons_of_mem _ hz)) _
        (edgesok_pupd_fresh h1 (hsub nb (List.mem_cons_self _ _)))

theorem beam_fold2_edges (g : Grid) (A B : Coord) :
    ∀ (frontier : List Coord) (acc : BeamState × List Coord),
      EdgesOK g A B acc.1.parent →
      EdgesOK g A B (frontier.foldl
        (fun acc cur => (neighbors_4 g cur).foldl (beam_nb cur) acc)
        acc).1.parent := by
  intro frontier
  induction frontier with
  | nil => intro acc h1; exact h1
  | cons cur rest ih =>
    intro acc h1
    rw [List.foldl_cons]
    exact ih _ (beam_fold1_edges g A B cur (neighbors_4 g cur)
      (fun _ h => h) acc h1)

theorem beam_loop_edges (g : Grid) (A B goal : Coord)
    (hf : Coord → Coord → ℚ) (K : ℕ) :
    ∀ (steps : ℕ) (st : BeamState), EdgesOK g A B st.parent →
      EdgesOK g A B (beam_loop g goal hf K steps st).parent := by
  intro steps
  induction steps with
  | zero => intro st h1; exact h1
  | succ steps ih =>
    intro st h1
    simp only [beam_loop]
    by_cases he : st.frontier = []
    · rw [if_pos he]
      exact h1
    · rw [if_neg he]
      by_cases hg : goal ∈ st.frontier
      · rw [if_pos hg]
        exact h1
      · rw [if_neg hg]
        have h2 := beam_fold2_edges g A B st.frontier (st, []) h1
        by_cases hc : (st.frontier.foldl
            (fun acc cur => (neighbors_4 g cur).foldl (beam_nb cur) acc)
            (st, [])).2 = []
        · rw [if_pos hc]
          exact h2
        · rw [if_neg hc]
          exact ih _ h2

/-- The parent map `beam_search` returns satisfies the edge
invariant. -/
theorem beam_edges (g : Grid) (start goal : Coord)
    (hf : Coord → Coord → ℚ) (bw : ℤ) :
    EdgesOK g start goal (beam_search g start goal hf bw).2 := by
  unfold beam_search
  exact beam_loop_edges g start goal goal hf _ 3000 _
    (edgesok_pinit g start goal start)

end Search

namespace Search

theorem rng_choice_mem (rng : ℕ → ℕ) (k : ℕ) {l : List Coord}
    (h : l ≠ []) : rng_choice rng k l ∈ l := by
  unfold rng_choice
  have hlen : 0 < l.length := List.length_pos.mpr h
  have hidx : rng k % l.length < l.length := Nat.mod_lt _ hlen
  rw [List.getD_eq_getElem?_getD, List.getElem?_eq_getElem hidx]
  exact List.getElem_mem hidx

theorem rng_shuffle_subset (rng : ℕ → ℕ) :
    ∀ (n : ℕ) (l : List Coord) (k : ℕ), l.length ≤ n →
      ∀ c ∈ rng_shuffle rng k l, c ∈ l := by
  intro n
  induction n with
  | zero =>
    intro l k hl c hc
    cases l with
    | nil => simp [rng_shuffle] at hc
    | cons a rest => simp at hl
  | succ n ih =>
    intro l k hl c hc
    cases l with
    | nil => simp [rng_shuffle] at hc
    | cons a rest =>
      rw [rng_shuffle] at hc
      rcases List.mem_cons.mp hc with rfl | hc2
      · have hidx : rng k % (a :: rest).length < (a :: rest).length :=
          Nat.mod_lt _ (by simp)
        rw [List.getD_eq_getElem?_getD, List.getElem?_eq_getElem hidx]
        exact List.getElem_mem hidx
      · have hlen : ((a :: rest).eraseIdx (rng k % (a :: rest).length)).length ≤ n := by
          rw [List.length_eraseIdx_of_lt (Nat.mod_lt _ (by simp))]
          simp only [List.length_cons] at hl ⊢
          omega
        exact (List.eraseIdx_sublist _ _).subset (ih _ _ hlen c hc2)

theorem sdfs_fold_edges (g : Grid) (A B : Coord) (cur : Coord)
    (nbs : List Coord) (hsub : ∀ nb ∈ nbs, nb ∈ neighbors_4 g cur) :
    ∀ st : SdfsState, EdgesOK g A B st.parent →
      EdgesOK g A B (nbs.foldl (sdfs_push cur) st).parent := by
  induction nbs with
  | nil => intro st h1; exact h1
  | cons nb rest ih =>
    intro st h1
    rw [List.foldl_cons]
    by_cases hf : st.parent nb = none
    · have hst1 : sdfs_push cur st nb =
          { st with parent := pupd st.parent nb (some cur),
                    stack := nb :: st.stack } := by
        unfold sdfs_push
        rw [if_pos hf]
      rw [hst1]
      exact ih (fun z hz => hsub z (List.mem_cons_of_mem _ hz)) _
        (edgesok_pupd_fresh h1 (hsub nb (List.mem_cons_self _ _)))
    · have hst1 : sdfs_push cur st nb = { st with stack := nb :: st.stack } := by
        unfold sdfs_push
        rw [if_neg hf]
      rw [hst1]
      exact ih (fun z hz => hsub z (List.mem_cons_of_mem _ hz)) _ h1

theorem sdfs_loop_edges (g : Grid) (A B goal : Coord) (rng : ℕ → ℕ) :
    ∀ (fuel : ℕ) (st : SdfsState), EdgesOK g A B st.parent →
      EdgesOK g A B (sdfs_loop g goal rng fuel st).parent := by
  intro fuel
  induction fuel with
  | zero => intro st h1; exact h1
  | succ fuel ih =>
    intro st h1
    cases hq : st.stack with
    | nil =>
      simp only [sdfs_loop, hq]
      exact h1
    | cons cur rest =>
      simp only [sdfs_loop, hq]
      by_cases hs : st.seen cur = true
      · rw [if_pos hs]
        exact ih _ h1
      · rw [if_neg hs]
        by_cases hg : cur = goal
        · rw [if_pos hg]
          exact h1
        · rw [if_neg hg]
          refine ih _ (sdfs_fold_edges g A B cur _ ?_ _ h1)
          intro z hz
          exact rng_shuffle_subset rng (neighbors_4 g cur).length _ _
            (le_refl _) z hz

/-- The parent map `stochastic_dfs` returns satisfies the edge
invariant. -/
theorem sdfs_edges (g : Grid) (start goal : Coord) (rng : ℕ → ℕ)
    (fuel : ℕ) :
    EdgesOK g start goal (stochastic_dfs g start goal rng fuel).2 := by
  unfold stochastic_dfs
  exact sdfs_loop_edges g start goal goal rng fuel _
    (edgesok_pinit g start goal start)

theorem random_walk_loop_edges (g : Grid) (A B goal : Coord)
    (rng : ℕ → ℕ) :
    ∀ (n k : ℕ) (cur : Coord) (p : PMap) (vis : List Coord),
      EdgesOK g A B p →
      EdgesOK g A B (random_walk_loop g goal rng n k cur p vis).2 := by
  intro n
  induction n with
  | zero => intro k cur p vis h1; exact h1
  | succ n ih =>
    intro k cur p vis h1
    by_cases hg : cur = goal
    · simp only [random_walk_loop, hg, if_pos]
      exact h1
    · cases hn : neighbors_4 g cur with
      | nil =>
        simp only [random_walk_loop, hg, hn]
        exact h1
      | cons a rest =>
        simp only [random_walk_loop, hg, hn]
        rw [if_neg not_false, ← hn]
        have hmem : rng_choice rng k (neighbors_4 g cur) ∈ neighbors_4 g cur :=
          rng_choice_mem rng k (by rw [hn]; exact List.cons_ne_nil a rest)
        by_cases hf : p (rng_choice rng k (neighbors_4 g cur)) = none
        · rw [if_pos hf]
          exact ih _ _ _ _ (edgesok_pupd_fresh h1 hmem)
        · rw [if_neg hf]
          exact ih _ _ _ _ h1

/-- The parent map `random_walk` returns satisfies the edge
invariant. -/
theorem random_walk_edges (g : Grid) (start goal : Coord)
    (max_steps : ℤ) (rng : ℕ → ℕ) :
    EdgesOK g start goal (random_walk g start goal max_steps rng).2 := by
  unfold random_walk
  exact random_walk_loop_edges g start goal goal rng _ 0 start _ [start]
    (edgesok_pinit g start goal start)

theorem min_by_h_mem (goal : Coord) (hf : Coord → Coord → ℚ)
    (nb0 : Coord) (rest : List Coord) :
    min_by_h goal hf nb0 rest ∈ nb0 :: rest := by
  unfold min_by_h
  induction rest generalizing nb0 with
  | nil => exact List.mem_cons_self _ _
  | cons y ys ih =>
    rw [List.foldl_cons]
    rcases List.mem_cons.mp (ih (if hf y goal < hf nb0 goal then y else nb0)) with h | h
    · rw [h]
      split_ifs
      · exact List.mem_cons_of_mem _ (List.mem_cons_self _ _)
      · exact List.mem_cons_self _ _
    · exact List.mem_cons_of_mem _ (List.mem_cons_of_mem _ h)

theorem hill_loop_edges (g : Grid) (A B goal : Coord)
    (hf : Coord → Coord → ℚ) :
    ∀ (n : ℕ) (cur : Coord) (p : PMap) (vis : List Coord),
      EdgesOK g A B p →
      EdgesOK g A B (hill_loop g goal hf n cur p vis).2 := by
  intro n
  induction n with
  | zero => intro cur p vis h1; exact h1
  | succ n ih =>
    intro cur p vis h1
    by_cases hg : cur = goal
    · simp only [hill_loop, hg, if_pos]
      exact h1
    · cases hn : neighbors_4 g cur with
      | nil =>
        simp only [hill_loop, hg, hn]
        exact h1
      | cons nb0 rest =>
        simp only [hill_loop, hg, hn]
        rw [if_neg not_false]
        have hmem : min_by_h goal hf nb0 rest ∈ neighbors_4 g cur := by
          rw [hn]
          exact min_by_h_mem goal hf nb0 rest
        by_cases hstop : hf cur goal ≤ hf (min_by_h goal hf nb0 rest) goal
        · rw [if_pos hstop]
          exact h1
        · rw [if_neg hstop]
          by_cases hfz : p (min_by_h goal hf nb0 rest) = none
          · rw [if_pos hfz]
            exact ih _ _ _ (edgesok_pupd_fresh h1 hmem)
          · rw [if_neg hfz]
            exact ih _ _ _ h1

/-- The parent map `steepest_hill_climb` returns satisfies the edge
invariant (for any pair of exempt endpoints, since every recorded
child is a neighbor cell). -/
theorem hill_edges (g : Grid) (A B s goal : Coord)
    (hf : Coord → Coord → ℚ) (max_steps : ℤ) :
    EdgesOK g A B (steepest_hill_climb g s goal hf max_steps).2 := by
  unfold steepest_hill_climb
  exact hill_loop_edges g A B goal hf _ s _ [s] (edgesok_pinit g A B s)

theorem rrhill_loop_edges (g : Grid) (A B start goal : Coord)
    (hf : Coord → Coord → ℚ) (max_steps : ℤ) (rng : ℕ → ℕ) :
    ∀ (n k : ℕ) (bv : List Coord) (bp : PMap) (be : Coord),
      EdgesOK g A B bp →
      EdgesOK g A B (rrhill_loop g start goal hf max_steps rng n k bv bp be).2 := by
  intro n
  induction n with
  | zero => intro k bv bp be h1; exact h1
  | succ n ih =>
    intro k bv bp be h1
    simp only [rrhill_loop]
    split_ifs <;>
      first
        | exact h1
        | exact hill_edges g A B _ goal hf max_steps
        | exact ih _ _ _ _ h1
        | exact ih _ _ _ _ (hill_edges g A B _ goal hf max_steps)

/-- The parent map `random_restart_hill_climb` returns satisfies the
edge invariant. -/
theorem rrhill_edges (g : Grid) (start goal : Coord)
    (hf : Coord → Coord → ℚ) (restarts max_steps : ℤ) (rng : ℕ → ℕ) :
    EdgesOK g start goal
      (random_restart_hill_climb g start goal hf restarts max_steps rng).2 := by
  unfold random_restart_hill_climb
  exact rrhill_loop_edges g start goal start goal hf max_steps rng _ 0
    [start] _ start (edgesok_pinit g start goal start)

theorem anneal_loop_edges (g : Grid) (A B goal : Coord)
    (hf : Coord → Coord → ℚ) (rng : ℕ → ℕ) :
    ∀ (n k : ℕ) (cur : Coord) (p : PMap) (vis : List Coord),
      EdgesOK g A B p →
      EdgesOK g A B (anneal_loop g goal hf rng n k cur p vis).2 := by
  intro n
  induction n with
  | zero => intro k cur p vis h1; exact h1
  | succ n ih =>
    intro k cur p vis h1
    by_cases hg : cur = goal
    · simp only [anneal_loop, hg, if_pos]
      exact h1
    · cases hn : neighbors_4 g cur with
      | nil =>
        simp only [anneal_loop, hg, hn]
        exact h1
      | cons a rest =>
        simp only [anneal_loop, hg, hn]
        rw [if_neg not_false, ← hn]
        have hmem : rng_choice rng k (neighbors_4 g cur) ∈ neighbors_4 g cur :=
          rng_choice_mem rng k (by rw [hn]; exact List.cons_ne_nil a rest)
        split_ifs <;>
          first
            | exact ih _ _ _ _ h1
            | exact ih _ _ _ _ (edgesok_pupd_fresh h1 hmem)

/-- The parent map `simulated_annealing` returns satisfies the edge
invariant. -/
theorem anneal_edges (g : Grid) (start goal : Coord)
    (hf : Coord → Coord → ℚ) (max_steps : ℤ) (rng : ℕ → ℕ) :
    EdgesOK g start goal
      (simulated_annealing g start goal hf max_steps rng).2 := by
  unfold simulated_annealing
  exact anneal_loop_edges g start goal goal hf rng _ 0 start _ [start]
    (edgesok_pinit g start goal start)

end Search

namespace Search

theorem ida_edges_both (g : Grid) (A B goal : Coord)
    (hf : Coord → Coord → ℚ) (bound : ℚ) :
    ∀ fuel : ℕ,
      (∀ (node : Coord) (gval : ℕ) (seen : Coord → Bool) (p : PMap)
        (vis : List Coord), EdgesOK g A B p →
        EdgesOK g A B
          (ida_search g goal hf bound fuel node gval seen p vis).2.2.1) ∧
      (∀ (node : Coord) (gval : ℕ) (seen : Coord → Bool)
        (nbs : List Coord) (minOver : Option ℚ) (p : PMap)
        (vis : List Coord), (∀ nb ∈ nbs, nb ∈ neighbors_4 g node) →
        EdgesOK g A B p →
        EdgesOK g A B
          (ida_children g goal hf bound fuel node gval seen nbs minOver
            p vis).2.2.1) := by
  intro fuel
  induction fuel with
  | zero =>
    have hS : ∀ (node : Coord) (gval : ℕ) (seen : Coord → Bool) (p : PMap)
        (vis : List Coord), EdgesOK g A B p →
        EdgesOK g A B
          (ida_search g goal hf bound 0 node gval seen p vis).2.2.1 := by
      intro node gval seen p vis h1
      simp only [ida_search]
      exact h1
    refine ⟨hS, ?_⟩
    intro node gval seen nbs
    induction nbs with
    | nil =>
      intro minOver p vis _ h1
      simp only [ida_children]
      exact h1
    | cons nb rest ih2 =>
      intro minOver p vis hsub h1
      simp only [ida_children]
      by_cases hs : seen nb = true
      · rw [if_pos hs]
        exact ih2 _ _ _ (fun z hz => hsub z (List.mem_cons_of_mem _ hz)) h1
      · rw [if_neg hs]
        have hp1 : EdgesOK g A B (pupd p nb (some node)) :=
          edgesok_pupd_fresh h1 (hsub nb (List.mem_cons_self _ _))
        have hr := hS nb (gval + 1) (fun y => y == nb || seen y)
          (pupd p nb (some node)) vis hp1
        split_ifs
        · exact hr
        · exact ih2 _ _ _ (fun z hz => hsub z (List.mem_cons_of_mem _ hz)) hr
  | succ fuel ih =>
    have hS : ∀ (node : Coord) (gval : ℕ) (seen : Coord → Bool) (p : PMap)
        (vis : List Coord), EdgesOK g A B p →
        EdgesOK g A B
          (ida_search g goal hf bound (fuel + 1) node gval seen p vis).2.2.1 := by
      intro node gval seen p vis h1
      simp only [ida_search]
      split_ifs
      · exact h1
      · exact h1
      · exact ih.2 node gval seen (neighbors_4 g node) none p
          (vis ++ [node]) (fun _ h => h) h1
    refine ⟨hS, ?_⟩
    intro node gval seen nbs
    induction nbs with
    | nil =>
      intro minOver p vis _ h1
      simp only [ida_children]
      exact h1
    | cons nb rest ih2 =>
      intro minOver p vis hsub h1
      simp only [ida_children]
      by_cases hs : seen nb = true
      · rw [if_pos hs]
        exact ih2 _ _ _ (fun z hz => hsub z (List.mem_cons_of_mem _ hz)) h1
      · rw [if_neg hs]
        have hp1 : EdgesOK g A B (pupd p nb (some node)) :=
          edgesok_pupd_fresh h1 (hsub nb (List.mem_cons_self _ _))
        have hr := hS nb (gval + 1) (fun y => y == nb || seen y)
          (pupd p nb (some node)) vis hp1
        split_ifs
        · exact hr
        · exact ih2 _ _ _ (fun z hz => hsub z (List.mem_cons_of_mem _ hz)) hr

theorem ida_outer_edges (g : Grid) (A B start goal : Coord)
    (hf : Coord → Coord → ℚ) (fuel : ℕ) :
    ∀ (iters : ℕ) (bound : ℚ) (p : PMap) (vis : List Coord),
      EdgesOK g A B p →
      EdgesOK g A B (ida_outer g start goal hf fuel iters bound p vis).2 := by
  intro iters
  induction iters with
  | zero => intro bound p vis h1; exact h1
  | succ iters ih =>
    intro bound p vis h1
    simp only [ida_outer]
    have hmain := (ida_edges_both g A B goal hf bound fuel).1 start 0
      (fun y => y == start) p vis h1
    split_ifs
    · exact hmain
    · cases hr : (ida_search g goal hf bound fuel start 0
        (fun y => y == start) p vis).1 with
      | none => exact hmain
      | some t1 => exact ih _ _ _ hmain

/-- The parent map `ida_star` returns satisfies the edge invariant. -/
theorem ida_star_edges (g : Grid) (start goal : Coord)
    (hf : Coord → Coord → ℚ) (fuel : ℕ) :
    EdgesOK g start goal (ida_star g start goal hf fuel).2 := by
  unfold ida_star
  exact ida_outer_edges g start goal start goal hf fuel 20000 _ _ []
    (edgesok_pinit g start goal start)

end Search

namespace Search

theorem bidir_nbs_post (g : Grid) (A B cur : Coord) (p_other : PMap)
    (nbs : List Coord) (hsub : ∀ nb ∈ nbs, nb ∈ neighbors_4 g cur) :
    ∀ (p : PMap) (q : List Coord), EdgesOK g A B p →
      EdgesOK g A B (bidir_nbs cur p_other nbs p q).1 ∧
      (∀ m, (bidir_nbs cur p_other nbs p q).2.2 = some m →
        ok_cell g m = true) := by
  induction nbs with
  | nil =>
    intro p q h1
    refine ⟨h1, fun m hm => ?_⟩
    simp [bidir_nbs] at hm
  | cons nb rest ih =>
    intro p q h1
    simp only [bidir_nbs]
    by_cases hf : p nb = none
    · rw [if_pos hf]
      by_cases ho : p_other nb ≠ none
      · rw [if_pos ho]
        refine ⟨edgesok_pupd_fresh h1 (hsub nb (List.mem_cons_self _ _)),
          fun m hm => ?_⟩
        obtain rfl : nb = m := Option.some_inj.mp hm
        exact (mem_neighbors_4 (hsub nb (List.mem_cons_self _ _))).2
      · rw [if_neg ho]
        exact ih (fun z hz => hsub z (List.mem_cons_of_mem _ hz)) _ _
          (edgesok_pupd_fresh h1 (hsub nb (List.mem_cons_self _ _)))
    · rw [if_neg hf]
      exact ih (fun z hz => hsub z (List.mem_cons_of_mem _ hz)) _ _ h1

theorem bidir_layer_post (g : Grid) (A B : Coord) (p_other : PMap) :
    ∀ (k : ℕ) (q : List Coord) (p : PMap) (vis : List Coord),
      EdgesOK g A B p →
      EdgesOK g A B (bidir_layer g p_other k q p vis).2.1 ∧
      (∀ m, (bidir_layer g p_other k q p vis).2.2.2 = some m →
        ok_cell g m = true) := by
  intro k
  induction k with
  | zero =>
    intro q p vis h1
    refine ⟨h1, fun m hm => ?_⟩
    simp [bidir_layer] at hm
  | succ k ih =>
    intro q p vis h1
    cases hq : q with
    | nil =>
      simp only [bidir_layer]
      refine ⟨h1, fun m hm => ?_⟩
      simp at hm
    | cons cur q_rest =>
      simp only [bidir_layer]
      obtain ⟨hr1, hr2⟩ := bidir_nbs_post g A B cur p_other
        (neighbors_4 g cur) (fun _ h => h) p q_rest h1
      cases hm : (bidir_nbs cur p_other (neighbors_4 g cur) p q_rest).2.2 with
      | some m =>
        refine ⟨hr1, fun m2 hm2 => ?_⟩
        obtain rfl : m = m2 := Option.some_inj.mp hm2
        exact hr2 m hm
      | none => exact ih _ _ _ hr1

theorem bidir_loop_post (g : Grid) (A B : Coord) :
    ∀ (fuel : ℕ) (q1 q2 : List Coord) (p1 p2 : PMap) (vis : List Coord),
      EdgesOK g A B p1 → EdgesOK g A B p2 →
      EdgesOK g A B (bidir_loop g fuel q1 q2 p1 p2 vis).2.1 ∧
      EdgesOK g A B (bidir_loop g fuel q1 q2 p1 p2 vis).2.2.1 ∧
      (∀ m, (bidir_loop g fuel q1 q2 p1 p2 vis).2.2.2 = some m →
        ok_cell g m = true) := by
  intro fuel
  induction fuel with
  | zero =>
    intro q1 q2 p1 p2 vis h1 h2
    exact ⟨h1, h2, fun m hm => by simp [bidir_loop] at hm⟩
  | succ fuel ih =>
    intro q1 q2 p1 p2 vis h1 h2
    simp only [bidir_loop]
    by_cases he : q1 = [] ∨ q2 = []
    · rw [if_pos he]
      exact ⟨h1, h2, fun m hm => by simp at hm⟩
    · rw [if_neg he]
      obtain ⟨ha1, ha2⟩ := bidir_layer_post g A B p2 q1.length q1 p1 vis h1
      cases hm1 : (bidir_layer g p2 q1.length q1 p1 vis).2.2.2 with
      | some m =>
        refine ⟨ha1, h2, fun m2 hm2 => ?_⟩
        obtain rfl : m = m2 := Option.some_inj.mp hm2
        exact ha2 m hm1
      | none =>
        obtain ⟨hb1, hb2⟩ := bidir_layer_post g A B
          (bidir_layer g p2 q1.length q1 p1 vis).2.1 q2.length q2 p2
          (bidir_layer g p2 q1.length q1 p1 vis).2.2.1 h2
        cases hm2 : (bidir_layer g (bidir_layer g p2 q1.length q1 p1 vis).2.1
            q2.length q2 p2 (bidir_layer g p2 q1.length q1 p1 vis).2.2.1).2.2.2 with
        | some m =>
          refine ⟨ha1, hb1, fun m2 hm3 => ?_⟩
          obtain rfl : m = m2 := Option.some_inj.mp hm3
          exact hb2 m hm2
        | none => exact ih _ _ _ _ _ ha1 hb1

theorem rebuild_fold_edges (g : Grid) (A B : Coord) :
    ∀ (prs : List (Coord × Coord)) (p : PMap), EdgesOK g A B p →
      (∀ pr ∈ prs, adj4 pr.2 pr.1 ∧
        (ok_cell g pr.2 = true ∨ pr.2 = A ∨ pr.2 = B)) →
      EdgesOK g A B
        (prs.foldl (fun p pr => pupd p pr.2 (some pr.1)) p) := by
  intro prs
  induction prs with
  | nil => intro p h1 _; exact h1
  | cons pr rest ih =>
    intro p h1 hprs
    rw [List.foldl_cons]
    refine ih _ (edgesok_pupd h1 (hprs pr (List.mem_cons_self _ _)).1
      (hprs pr (List.mem_cons_self _ _)).2) ?_
    intro z hz
    exact hprs z (List.mem_cons_of_mem _ hz)

theorem chain'_zip_pairs {R : Coord → Coord → Prop} :
    ∀ (l : List Coord), List.Chain' R l →
      ∀ pr ∈ l.zip l.tail, R pr.1 pr.2 := by
  intro l
  induction l with
  | nil => intro _ pr hpr; cases hpr
  | cons a t ih =>
    intro hch pr hpr
    cases t with
    | nil => cases hpr
    | cons b t2 =>
      obtain ⟨hR, hch2⟩ := List.chain'_cons.mp hch
      rcases List.mem_cons.mp hpr with rfl | hpr2
      · exact hR
      · exact ih hch2 pr hpr2

theorem rebuild_parent_edges (g : Grid) (A B root : Coord)
    (full : List Coord) (hch : List.Chain' adj4 full)
    (hok : ∀ x ∈ full.tail, ok_cell g x = true ∨ x = A ∨ x = B) :
    EdgesOK g A B (rebuild_parent root full) := by
  unfold rebuild_parent
  refine rebuild_fold_edges g A B _ _ (edgesok_pinit g A B root) ?_
  intro pr hpr
  exact ⟨adj4_symm (chain'_zip_pairs full hch pr hpr),
    hok pr.2 (List.of_mem_zip hpr).2⟩

end Search

namespace Search

/-- The parent map `bidirectional_bfs` returns satisfies the edge
invariant: either a plain BFS-from-start map (no meeting point), or
the map rebuilt along `full_path`, whose consecutive cells are
4-adjacent and whose non-endpoint cells are open. -/
theorem bidirectional_bfs_edges (g : Grid) (start goal : Coord) (fuel : ℕ) :
    EdgesOK g start goal (bidirectional_bfs g start goal fuel).2 := by
  unfold bidirectional_bfs
  by_cases hsg : start = goal
  · rw [if_pos hsg]
    exact edgesok_pinit g start goal start
  · rw [if_neg hsg]
    split
    next vis p1 p2 heq =>
      have hp1 : p1 = (bidir_loop g fuel [start] [goal] (pinit start)
          (pinit goal) []).2.1 := by rw [heq]
      rw [show ((vis, p1) : List Coord × PMap).2 = p1 from rfl, hp1]
      exact (bidir_loop_post g start goal fuel [start] [goal]
        (pinit start) (pinit goal) [] (edgesok_pinit g start goal start)
        (edgesok_pinit g start goal goal)).1
    next vis p1 p2 m heq =>
      have hp1 : p1 = (bidir_loop g fuel [start] [goal] (pinit start)
          (pinit goal) []).2.1 := by rw [heq]
      have hp2 : p2 = (bidir_loop g fuel [start] [goal] (pinit start)
          (pinit goal) []).2.2.1 := by rw [heq]
      have hmm : (bidir_loop g fuel [start] [goal] (pinit start)
          (pinit goal) []).2.2.2 = some m := by rw [heq]
      have hA := bidir_loop_post g start m fuel [start] [goal]
        (pinit start) (pinit goal) [] (edgesok_pinit g start m start)
        (edgesok_pinit g start m goal)
      have hB := bidir_loop_post g goal m fuel [start] [goal]
        (pinit start) (pinit goal) [] (edgesok_pinit g goal m start)
        (edgesok_pinit g goal m goal)
      have hOK : ok_cell g m = true :=
        (bidir_loop_post g start goal fuel [start] [goal]
          (pinit start) (pinit goal) [] (edgesok_pinit g start goal start)
          (edgesok_pinit g start goal goal)).2.2 m hmm
      have hp1' := reconstruct_path_spec g start m p1 fuel (hp1 ▸ hA.1)
      have hb2 := reconstruct_path_spec g goal m p2 fuel (hp2 ▸ hB.2.1)
      set path1 := reconstruct_path p1 start m fuel with hpath1
      set back2 := reconstruct_path p2 goal m fuel with hback2
      have hchain_p1 : List.Chain' adj4 path1 := by
        rcases hp1' with h0 | hv
        · rw [h0]
          exact List.chain'_nil
        · exact hv.2.2.1
      have hchain_back : List.Chain' adj4 back2.reverse := by
        rcases hb2 with h0 | hv
        · rw [h0]
          exact List.chain'_nil
        · rw [List.chain'_reverse]
          exact List.Chain'.imp (fun a b hab => adj4_symm hab) hv.2.2.1
      have hchain : List.Chain' adj4 (path1 ++ back2.reverse.tail) := by
        rw [List.chain'_append]
        refine ⟨hchain_p1, hchain_back.tail, ?_⟩
        intro x hx y hy
        rcases hp1' with h0 | hv
        · rw [h0] at hx
          simp at hx
        · have hxm : x = m := by
            rw [hv.2.1] at hx
            exact (Option.mem_some_iff.mp hx).symm
          rcases hb2 with h0 | hbv
          · rw [h0] at hy
            simp at hy
          · have hbm : back2.reverse.head? = some m := by
              rw [List.head?_reverse]
              exact hbv.2.1
            cases hbr : back2.reverse with
            | nil =>
              rw [hbr] at hy
              simp at hy
            | cons b bt =>
              have hbm2 : b = m := by
                rw [hbr] at hbm
                exact Option.some_inj.mp hbm
              rw [hbr] at hy
              cases bt with
              | nil => simp at hy
              | cons y0 bt2 =>
                have hadj : adj4 b y0 := by
                  have hcb := hchain_back
                  rw [hbr] at hcb
                  exact (List.chain'_cons.mp hcb).1
                have hyy : y = y0 := by
                  simp at hy
                  exact hy.symm
                rw [hxm, hyy, ← hbm2]
                exact hadj
      have hoks : ∀ x ∈ path1 ++ back2.reverse.tail,
          ok_cell g x = true ∨ x = start ∨ x = goal := by
        intro x hx
        rcases List.mem_append.mp hx with hx1 | hx2
        · rcases hp1' with h0 | hv
          · rw [h0] at hx1
            cases hx1
          · by_cases hxs : x = start
            · exact Or.inr (Or.inl hxs)
            · by_cases hxm : x = m
              · rw [hxm]
                exact Or.inl hOK
              · exact Or.inl (hv.2.2.2 x hx1 hxs hxm)
        · have hx3 : x ∈ back2 := by
            have hxb : x ∈ back2.reverse := List.mem_of_mem_tail hx2
            rw [List.mem_reverse] at hxb
            exact hxb
          rcases hb2 with h0 | hbv
          · rw [h0] at hx3
            cases hx3
          · by_cases hxg : x = goal
            · exact Or.inr (Or.inr hxg)
            · by_cases hxm : x = m
              · rw [hxm]
                exact Or.inl hOK
              · exact Or.inl (hbv.2.2.2 x hx3 hxg hxm)
      exact rebuild_parent_edges g start goal start _ hchain
        (fun x hx => hoks x (List.mem_of_mem_tail hx))

end Search

namespace Search

/-- C10: `weighted_astar` clamps its weight to at least 1 — the line
`w = max(1.0, w)` runs before the weight is ever used, so for every
weight below 1 the whole run (visited order and parent map alike)
coincides with the run at weight 1. -/
theorem weighted_astar_clamp (g : Grid) (start goal : Coord)
    (hf : Coord → Coord → ℚ) (w : ℚ) (fuel : ℕ) (hw : w < 1) :
    weighted_astar g start goal hf w fuel =
      weighted_astar g start goal hf 1 fuel := by
  unfold weighted_astar
  rw [max_eq_left (le_of_lt hw), max_self]

/-- Witness for `weighted_astar_clamp` at the concrete weight 1/2. -/
theorem weighted_astar_clamp_witness :
    weighted_astar [[0, 0]] (0, 0) (0, 1) (fun x y => 0) (1 / 2) 5 =
      weighted_astar [[0, 0]] (0, 0) (0, 1) (fun x y => 0) 1 5 :=
  weighted_astar_clamp [[0, 0]] (0, 0) (0, 1) (fun x y => 0) (1 / 2) 5
    (by norm_num)

end Search

namespace Search

/-- C2: when the canonicalized strategy name is not one of the
recognized names, `run_search` returns the structured not-ok result —
`ok = False`, empty visited order and path, and the diagnostic stats
dictionary carrying the original and normalized names — rather than
raising. (The embedding is total, so every branch of the dispatcher
returns a value; no algorithm runs in this branch.) -/
theorem run_search_unknown (g : Grid) (start goal : Coord)
    (algorithm : PyStr) (hf : Coord → Coord → ℚ) (params : SearchParams)
    (rng : ℕ → ℕ) (fuel : ℕ)
    (h : normalize_algo algorithm ∉ known_algos) :
    run_search g start goal algorithm hf params rng fuel =
      ⟨false, [], [],
        SearchStats.errorStats algorithm (normalize_algo algorithm)⟩ := by
  unfold run_search
  split
  next heq => rfl
  next vp heq =>
    exfalso
    have n1 : ¬ normalize_algo algorithm = "bfs".toList :=
      fun e => h (by rw [e]; decide)
    have n2 : ¬ normalize_algo algorithm = "dfs".toList :=
      fun e => h (by rw [e]; decide)
    have n3 : ¬ normalize_algo algorithm = "dls".toList :=
      fun e => h (by rw [e]; decide)
    have n4 : ¬ normalize_algo algorithm = "iddfs".toList :=
      fun e => h (by rw [e]; decide)
    have n5 : ¬ (normalize_algo algorithm = "ucs".toList ∨
        normalize_algo algorithm = "dijkstra".toList) :=
      fun e => e.elim (fun e1 => h (by rw [e1]; decide))
        (fun e2 => h (by rw [e2]; decide))
    have n6 : ¬ normalize_algo algorithm = "bidir".toList :=
      fun e => h (by rw [e]; decide)
    have n7 : ¬ normalize_algo algorithm = "greedy".toList :=
      fun e => h (by rw [e]; decide)
    have n8 : ¬ normalize_algo algorithm = "astar".toList :=
      fun e => h (by rw [e]; decide)
    have n9 : ¬ normalize_algo algorithm = "wastar".toList :=
      fun e => h (by rw [e]; decide)
    have n10 : ¬ normalize_algo algorithm = "idastar".toList :=
      fun e => h (by rw [e]; decide)
    have n11 : ¬ normalize_algo algorithm = "beam".toList :=
      fun e => h (by rw [e]; decide)
    have n12 : ¬ normalize_algo algorithm = "sdfs".toList :=
      fun e => h (by rw [e]; decide)
    have n13 : ¬ normalize_algo algorithm = "rwalk".toList :=
      fun e => h (by rw [e]; decide)
    have n14 : ¬ normalize_algo algorithm = "hill".toList :=
      fun e => h (by rw [e]; decide)
    have n15 : ¬ normalize_algo algorithm = "rrhill".toList :=
      fun e => h (by rw [e]; decide)
    have n16 : ¬ normalize_algo algorithm = "anneal".toList :=
      fun e => h (by rw [e]; decide)
    rw [if_neg n1, if_neg n2, if_neg n3, if_neg n4, if_neg n5, if_neg n6,
      if_neg n7, if_neg n8, if_neg n9, if_neg n10, if_neg n11, if_neg n12,
      if_neg n13, if_neg n14, if_neg n15, if_neg n16] at heq
    exact Option.noConfusion heq

/-- Witness for `run_search_unknown`: the name "Simulated Quenching"
normalizes to "simulatedquenching", which is unknown, and the call
returns the error result. -/
theorem run_search_unknown_witness :
    run_search [[0, 0]] (0, 0) (0, 1) ("Simulated Quenching".toList)
        (fun x y => 0) ⟨none, none, none, none, none⟩ (fun n => 0) 3 =
      ⟨false, [], [],
        SearchStats.errorStats ("Simulated Quenching".toList)
          (normalize_algo ("Simulated Quenching".toList))⟩ :=
  run_search_unknown [[0, 0]] (0, 0) (0, 1) ("Simulated Quenching".toList)
    (fun x y => 0) ⟨none, none, none, none, none⟩ (fun n => 0) 3
    (by decide)

end Search

namespace Search

/-- C1 (amended): for every grid, endpoints, strategy name, heuristic,
params, randomness oracle and fuel, the `run_search` result satisfies:
if its `found` flag is true, the path starts at `start`, ends at
`goal`, every consecutive pair of path coordinates is 4-adjacent, and
every path coordinate other than the endpoints is an in-bounds
non-wall cell; if `found` is false, the path is empty. (The original
wording — every coordinate of a consecutive pair is non-wall — fails
when `start` itself is a wall, see the counterexample.) -/
theorem run_search_found_path_valid (g : Grid) (start goal : Coord)
    (algorithm : PyStr) (hf : Coord → Coord → ℚ) (params : SearchParams)
    (rng : ℕ → ℕ) (fuel : ℕ) :
    ((run_search g start goal algorithm hf params rng fuel).found_flag
        = true →
      ValidSearchPath g start goal
        (run_search g start goal algorithm hf params rng fuel).path) ∧
    ((run_search g start goal algorithm hf params rng fuel).found_flag
        = false →
      (run_search g start goal algorithm hf params rng fuel).path = []) := by
  unfold run_search
  split
  next heq =>
    constructor
    · intro hfound
      exact Bool.noConfusion hfound
    · intro hnf
      rfl
  next vp heq =>
    have hE : EdgesOK g start goal vp.2 := by
      by_cases c1 : normalize_algo algorithm = "bfs".toList
      · rw [if_pos c1] at heq
        injection heq with hv
        rw [← hv]
        exact bfs_edges g start goal fuel
      rw [if_neg c1] at heq
      by_cases c2 : normalize_algo algorithm = "dfs".toList
      · rw [if_pos c2] at heq
        injection heq with hv
        rw [← hv]
        exact dfs_edges g start goal fuel
      rw [if_neg c2] at heq
      by_cases c3 : normalize_algo algorithm = "dls".toList
      · rw [if_pos c3] at heq
        injection heq with hv
        rw [← hv]
        exact dls_edges g start goal (params.depth_limit.getD 25) fuel
      rw [if_neg c3] at heq
      by_cases c4 : normalize_algo algorithm = "iddfs".toList
      · rw [if_pos c4] at heq
        injection heq with hv
        rw [← hv]
        exact iddfs_edges g start goal (params.depth_limit.getD 80) fuel
      rw [if_neg c4] at heq
      by_cases c5 : normalize_algo algorithm = "ucs".toList ∨
          normalize_algo algorithm = "dijkstra".toList
      · rw [if_pos c5] at heq
        injection heq with hv
        rw [← hv]
        exact ucs_edges g start goal fuel
      rw [if_neg c5] at heq
      by_cases c6 : normalize_algo algorithm = "bidir".toList
      · rw [if_pos c6] at heq
        injection heq with hv
        rw [← hv]
        exact bidirectional_bfs_edges g start goal fuel
      rw [if_neg c6] at heq
      by_cases c7 : normalize_algo algorithm = "greedy".toList
      · rw [if_pos c7] at heq
        injection heq with hv
        rw [← hv]
        exact greedy_edges g start goal hf fuel
      rw [if_neg c7] at heq
      by_cases c8 : normalize_algo algorithm = "astar".toList
      · rw [if_pos c8] at heq
        injection heq with hv
        rw [← hv]
        exact astar_edges g start goal hf fuel
      rw [if_neg c8] at heq
      by_cases c9 : normalize_algo algorithm = "wastar".toList
      · rw [if_pos c9] at heq
        injection heq with hv
        rw [← hv]
        exact weighted_astar_edges g start goal hf
          (params.weight.getD (8 / 5)) fuel
      rw [if_neg c9] at heq
      by_cases c10 : normalize_algo algorithm = "idastar".toList
      · rw [if_pos c10] at heq
        injection heq with hv
        rw [← hv]
        exact ida_star_edges g start goal hf fuel
      rw [if_neg c10] at heq
      by_cases c11 : normalize_algo algorithm = "beam".toList
      · rw [if_pos c11] at heq
        injection heq with hv
        rw [← hv]
        exact beam_edges g start goal hf (params.beam_width.getD 5)
      rw [if_neg c11] at heq
      by_cases c12 : normalize_algo algorithm = "sdfs".toList
      · rw [if_pos c12] at heq
        injection heq with hv
        rw [← hv]
        exact sdfs_edges g start goal rng fuel
      rw [if_neg c12] at heq
      by_cases c13 : normalize_algo algorithm = "rwalk".toList
      · rw [if_pos c13] at heq
        injection heq with hv
        rw [← hv]
        exact random_walk_edges g start goal (params.max_steps.getD 800) rng
      rw [if_neg c13] at heq
      by_cases c14 : normalize_algo algorithm = "hill".toList
      · rw [if_pos c14] at heq
        injection heq with hv
        rw [← hv]
        exact hill_edges g start goal start goal hf (params.max_steps.getD 800)
      rw [if_neg c14] at heq
      by_cases c15 : normalize_algo algorithm = "rrhill".toList
      · rw [if_pos c15] at heq
        injection heq with hv
        rw [← hv]
        exact rrhill_edges g start goal hf (params.restarts.getD 15)
          (params.max_steps.getD 400) rng
      rw [if_neg c15] at heq
      by_cases c16 : normalize_algo algorithm = "anneal".toList
      · rw [if_pos c16] at heq
        injection heq with hv
        rw [← hv]
        exact anneal_edges g start goal hf (params.max_steps.getD 800) rng
      rw [if_neg c16] at heq
      exact Option.noConfusion heq
    have hspec := reconstruct_path_spec g start goal vp.2 fuel hE
    constructor
    · intro hfound
      have hfound2 :
          decide (0 < (reconstruct_path vp.2 start goal fuel).length)
            = true := hfound
      show ValidSearchPath g start goal
        (reconstruct_path vp.2 start goal fuel)
      rcases hspec with h0 | hv
      · rw [h0] at hfound2
        exact absurd (of_decide_eq_true hfound2) (by simp)
      · exact hv
    · intro hnf
      have hnf2 :
          decide (0 < (reconstruct_path vp.2 start goal fuel).length)
            = false := hnf
      show reconstruct_path vp.2 start goal fuel = []
      rcases hspec with h0 | hv
      · exact h0
      · exfalso
        have hne : reconstruct_path vp.2 start goal fuel ≠ [] := by
          intro hc
          rw [hc] at hv
          exact Option.noConfusion hv.2.1
        exact (of_decide_eq_false hnf2) (List.length_pos.mpr hne)

end Search

namespace Search

/-- C1 counterexample to the original wording: on the 1×2 grid whose
start cell `(0,0)` is a wall, BFS still finds the path
`[(0,0), (0,1)]` (the start is seeded unconditionally and neighbors
are only filtered for the cells being entered), so the found path's
consecutive pair contains the wall coordinate `(0,0)`. -/
theorem run_search_wall_start_path :
    (run_search [[1, 0]] (0, 0) (0, 1) ("bfs".toList) (fun x y => 0)
        ⟨none, none, none, none, none⟩ (fun n => 0) 9).found_flag = true ∧
    (run_search [[1, 0]] (0, 0) (0, 1) ("bfs".toList) (fun x y => 0)
        ⟨none, none, none, none, none⟩ (fun n => 0) 9).path =
      [(0, 0), (0, 1)] ∧
    is_wall [[1, 0]] 0 0 = true := by
  decide

/-- Witness for `run_search_found_path_valid`: on the open 1×2 grid a
BFS run is found and the concrete returned path is a valid search
path. -/
theorem run_search_found_path_valid_witness :
    ValidSearchPath [[0, 0]] (0, 0) (0, 1)
      (run_search [[0, 0]] (0, 0) (0, 1) ("bfs".toList) (fun x y => 0)
        ⟨none, none, none, none, none⟩ (fun n => 0) 9).path :=
  (run_search_found_path_valid [[0, 0]] (0, 0) (0, 1) ("bfs".toList)
    (fun x y => 0) ⟨none, none, none, none, none⟩ (fun n => 0) 9).1
    (by decide)

end Search
